import Mathlib

/-!
Shallow embedding of the stability-aware symbol resolution engine of the
`rust-modernity` repository (src/std_versions.rs, src/analyzer.rs,
src/disk.rs), together with theorems settling the frozen claims about it.

Conventions:
* `HashMap<String, VersionedItem>` is embedded as an association list with
  unique keys; `getChild` is keyed lookup, `setChild` is keyed replacement
  (the `entry(..).or_insert_with(..)` get-or-create pattern is `insertAt`).
* The recursion of `resolve_path_from` is not structurally decreasing in the
  Rust source (alias following can re-enter the same call), so the embedding
  takes an explicit `fuel` parameter that is decremented at every recursive
  self-call (the inner descent loop of a single call consumes no fuel, just as
  it consumes no recursion depth in the source).  The result type `RRes`
  distinguishes running out of fuel (`fuelOut`, the call would recurse deeper),
  a `.unwrap()` panic on `None` (`panicked`), and a defined answer (`ok`).
-/

/-- Result of a fuelled run of `resolve_path_from`: `fuelOut` means the call
would have recursed deeper than the given fuel, `panicked` models the
`.unwrap()` panic on `None`, and `ok r` is the defined result `r` of the
Rust function (an `Option`). -/
inductive RRes (α : Type) : Type where
  | fuelOut : RRes α
  | panicked : RRes α
  | ok : Option α → RRes α
deriving Repr, DecidableEq

/-- Tree node of the versioned symbol tree (struct `VersionedItem` in
src/std_versions.rs): `name` (a `#[serde(skip)]` debug field), the
stabilization `version`, the `public` visibility flag, and `children` as a
keyed map embedded as an association list with unique keys. -/
inductive VersionedItem : Type where
  | mk : String → String → Bool → List (String × VersionedItem) → VersionedItem

/-- Field accessor for `VersionedItem.name`. -/
def VersionedItem.name : VersionedItem → String
  | .mk n _ _ _ => n

/-- Field accessor for `VersionedItem.version`. -/
def VersionedItem.version : VersionedItem → String
  | .mk _ v _ _ => v

/-- Field accessor for `VersionedItem.public`. -/
def VersionedItem.public : VersionedItem → Bool
  | .mk _ _ p _ => p

/-- Field accessor for `VersionedItem.children`. -/
def VersionedItem.children : VersionedItem → List (String × VersionedItem)
  | .mk _ _ _ cs => cs

/-- `HashMap::get` on the children map: first (unique) matching key. -/
def getChild : List (String × VersionedItem) → String → Option VersionedItem
  | [], _ => none
  | (k, v) :: rest, s => if k = s then some v else getChild rest s

/-- Keyed update of the children map: replace the entry for the key if
present, otherwise append a new entry. -/
def setChild : List (String × VersionedItem) → String → VersionedItem → List (String × VersionedItem)
  | [], s, v => [(s, v)]
  | (k, w) :: rest, s, v => if k = s then (s, v) :: rest else (k, w) :: setChild rest s v

/-- `VersionedItem::new` (src/std_versions.rs lines 28-35): fresh node with
the default version "1.0.0", marked public, no children. -/
def VersionedItem.new (name : String) : VersionedItem :=
  .mk name "1.0.0" true []

/-- enum `LocalAlias` of src/std_versions.rs. -/
inductive LocalAlias : Type where
  | named : String → LocalAlias
  | globChildren : LocalAlias
deriving Repr, DecidableEq

/-- struct `Alias` of src/std_versions.rs: `root` is the defining scope,
`relative_path` the target path and `local_` the binding (field `local` in
the source; `local` is a keyword in Lean). -/
structure Alias : Type where
  root : List String
  relative_path : List String
  local_ : LocalAlias
deriving Repr, DecidableEq

/-- struct `VersionConstructor` of src/std_versions.rs: the tree root, the
ordered alias list, and the build-time `path_stack` (a `#[serde(skip)]`
field never read by resolution). -/
structure VersionConstructor : Type where
  root : VersionedItem
  aliases : List Alias
  path_stack : List String

/-- `VersionConstructor::new`. -/
def VersionConstructor.new : VersionConstructor :=
  ⟨VersionedItem.new "", [], []⟩

/-- The in-place rewrite of lines 397-400 of src/std_versions.rs: a leading
"alloc_crate" of `root_path` is replaced by "alloc" before the descent loop. -/
def rewriteRootPath : List String → List String
  | [] => []
  | r0 :: rest => if r0 = "alloc_crate" then "alloc" :: rest else r0 :: rest

/-- The `last.or_else(|| self.resolve_path_from(&self.root, &[], &path_until_here))`
expression of the candidate loop (lines 446-448 and 472-474): `recur` stands
for a recursive `resolve_path_from` call at one smaller fuel. -/
def lastOr (recur : VersionedItem → List String → List String → RRes VersionedItem)
    (vc : VersionConstructor) (last : Option VersionedItem) (puh : List String) :
    RRes VersionedItem :=
  match last with
  | some x => .ok (some x)
  | none => recur vc.root [] puh

/-- The candidate loop over `self.aliases.iter().filter(|alias| alias.root == path_until_here)`
(lines 426-506 of src/std_versions.rs).  `puh` is `path_until_here` after the
pop, `l` the popped segment, `remaining` is `&path[i..]`, and `recur` a
recursive `resolve_path_from` call at one smaller fuel.  The `.unwrap()` on
the `or_else` result maps `ok none` to `panicked`; the trailing `?` of the
Named arm maps a failed absolute re-rooting to `ok none` for the whole
resolution, while the Glob arm `continue`s to the next candidate. -/
def try_aliases (recur : VersionedItem → List String → List String → RRes VersionedItem)
    (vc : VersionConstructor) (puh : List String) (l : String)
    (last : Option VersionedItem) (remaining : List String) :
    List Alias → RRes VersionedItem
  | [] => .ok none
  | a :: more =>
    if a.root = puh then
      match a.local_ with
      | .named name =>
        if name = l then
          match lastOr recur vc last puh with
          | .fuelOut => .fuelOut
          | .panicked => .panicked
          | .ok none => .panicked
          | .ok (some lastItem) =>
            match recur lastItem puh a.relative_path with
            | .fuelOut => .fuelOut
            | .panicked => .panicked
            | .ok (some new_root) => recur new_root (puh ++ a.relative_path) remaining
            | .ok none =>
              match recur vc.root [] a.relative_path with
              | .fuelOut => .fuelOut
              | .panicked => .panicked
              | .ok none => .ok none
              | .ok (some new_root) => recur new_root a.relative_path remaining
        else try_aliases recur vc puh l last remaining more
      | .globChildren =>
        match lastOr recur vc last puh with
        | .fuelOut => .fuelOut
        | .panicked => .panicked
        | .ok none => .panicked
        | .ok (some lastItem) =>
          match recur lastItem puh a.relative_path with
          | .fuelOut => .fuelOut
          | .panicked => .panicked
          | .ok (some new_root) =>
            if (getChild new_root.children l).isSome then
              recur new_root (puh ++ a.relative_path) remaining
            else
              match recur vc.root [] a.relative_path with
              | .fuelOut => .fuelOut
              | .panicked => .panicked
              | .ok none => try_aliases recur vc puh l last remaining more
              | .ok (some new_root2) =>
                if (getChild new_root2.children l).isSome then
                  recur new_root2 a.relative_path remaining
                else try_aliases recur vc puh l last remaining more
          | .ok none =>
            match recur vc.root [] a.relative_path with
            | .fuelOut => .fuelOut
            | .panicked => .panicked
            | .ok none => try_aliases recur vc puh l last remaining more
            | .ok (some new_root2) =>
              if (getChild new_root2.children l).isSome then
                recur new_root2 a.relative_path remaining
              else try_aliases recur vc puh l last remaining more
    else try_aliases recur vc puh l last remaining more

/-- The `for (i, segment) in path.iter().enumerate()` descent loop of
`resolve_path_from` (lines 402-509): `current`/`last` are the loop state,
`consumed` is `&path[..i]` (the segments already walked past, "self" ones
included) and the function argument is the remaining `&path[i..]`.  On a
miss it pops the last element of `root_path ++ consumed` (failing the whole
resolution if that list is empty, the `?` on `pop()`) and runs the candidate
loop. -/
def resolve_loop (recur : VersionedItem → List String → List String → RRes VersionedItem)
    (vc : VersionConstructor) (rp : List String) (current : VersionedItem)
    (last : Option VersionedItem) (consumed : List String) :
    List String → RRes VersionedItem
  | [] => .ok (some current)
  | seg :: rest =>
    if seg = "super" then .ok none
    else if seg = "self" then
      resolve_loop recur vc rp current last (consumed ++ [seg]) rest
    else
      match getChild current.children seg with
      | some next => resolve_loop recur vc rp next (some current) (consumed ++ [seg]) rest
      | none =>
        match (rp ++ consumed).getLast? with
        | none => .ok none
        | some l =>
          try_aliases recur vc ((rp ++ consumed).dropLast) l last (seg :: rest) vc.aliases

/-- `VersionConstructor::resolve_path_from` (src/std_versions.rs lines
370-512), with `fuel` bounding the recursion depth: fuel 0 is `fuelOut`;
otherwise the crate / alloc_crate shorthand block runs first (only when both
`root_path` and `path` are non-empty), then the leading-"alloc_crate"
rewrite of `root_path`, then the descent loop.  Every recursive self-call of
the source runs at one smaller fuel. -/
def resolve_path_from (fuel : Nat) (vc : VersionConstructor) :
    VersionedItem → List String → List String → RRes VersionedItem :=
  match fuel with
  | 0 => fun _ _ _ => .fuelOut
  | fuel + 1 => fun root root_path path =>
    let recur := resolve_path_from fuel vc
    match root_path, path with
    | r0 :: _, p0 :: ptail =>
      if p0 = "crate" then
        match getChild vc.root.children r0 with
        | none => .ok none
        | some new_root => recur new_root [r0] ptail
      else if p0 = "alloc_crate" then
        match getChild vc.root.children "alloc" with
        | none => .ok none
        | some new_root => recur new_root ["alloc"] ptail
      else resolve_loop recur vc (rewriteRootPath root_path) root none [] path
    | _, _ => resolve_loop recur vc (rewriteRootPath root_path) root none [] path

/-- `VersionConstructor::get_version` (lines 514-517): resolve from the tree
root with an empty `root_path` and project the version string. -/
def get_version (fuel : Nat) (vc : VersionConstructor) (path : List String) : RRes String :=
  match resolve_path_from fuel vc vc.root [] path with
  | .fuelOut => .fuelOut
  | .panicked => .panicked
  | .ok none => .ok none
  | .ok (some item) => .ok (some item.version)

/-- `VersionConstructor::current_item_mut` combined with the mutation its
caller performs through the returned reference (src/std_versions.rs lines
348-362): walk the path, skipping "self" segments, get-or-create each child
with `VersionedItem::new(format!("{}::{}", current.name, section))`, and
apply `f` to the final node. -/
def insertAt : VersionedItem → List String → (VersionedItem → VersionedItem) → VersionedItem
  | item, [], f => f item
  | item, s :: rest, f =>
    if s = "self" then insertAt item rest f
    else
      let child := (getChild item.children s).getD (VersionedItem.new (item.name ++ "::" ++ s))
      .mk item.name item.version item.public (setChild item.children s (insertAt child rest f))

/-- `VersionConstructor::push_version` (lines 364-368) at an explicit path:
sets the version and public flag of the node at the path (creating ancestors
as needed via `current_item_mut`). -/
def push_version_at (root : VersionedItem) (path : List String) (version : String)
    (pub : Bool) : VersionedItem :=
  insertAt root path (fun it => .mk it.name version pub it.children)

/-- One recorded stability entry: the builder calls `push_version` once per
stability-attributed declaration, with the path-stack position, the
attribute's `since` string, and the computed visibility. -/
structure Insertion : Type where
  path : List String
  version : String
  public : Bool

/-- A complete builder run at the `push_version` interface: the sequence of
stability insertions applied to the fresh root of `VersionConstructor::new`. -/
def buildIndex (inserts : List Insertion) : VersionedItem :=
  inserts.foldl (fun r ins => push_version_at r ins.path ins.version ins.public)
    (VersionedItem.new "")

/-- Plain tree descent (specification helper): child lookup for every
segment, no reserved-segment handling and no alias fallback. -/
def descend : VersionedItem → List String → Option VersionedItem
  | item, [] => some item
  | item, s :: rest =>
    match getChild item.children s with
    | none => none
    | some c => descend c rest

/-- Drop the "self" segments of a path (specification helper). -/
def filterSelf (p : List String) : List String :=
  p.filter (fun s => ¬ s = "self")

/-- Structure-preserving node map (specification helper): rewrites the
`name` field with `fn` and the `public` field with `fp` at every node,
keeping versions, child keys and child order unchanged.  `fn := fun _ => ""`
models the `#[serde(skip)]` erasure of `name`; `fp := fun _ => b` erases the
visibility flags. -/
def mapItem (fn : String → String) (fp : Bool → Bool) : VersionedItem → VersionedItem
  | .mk n v p cs => .mk (fn n) v (fp p) (mapChildren cs)
where
  /-- Children-list form of `mapItem`. -/
  mapChildren : List (String × VersionedItem) → List (String × VersionedItem)
    | [] => []
    | (k, c) :: rest => (k, mapItem fn fp c) :: mapChildren rest

/-- The effect of one serde round-trip on an index (spec §6 snapshot format):
all fields survive except the `#[serde(skip)]` ones, which deserialize to
their defaults — every node `name` becomes the empty string and the
`path_stack` becomes empty.  Versions, visibility, child keys and the alias
list are preserved. -/
def serde_round_trip (vc : VersionConstructor) : VersionConstructor :=
  ⟨mapItem (fun _ => "") (fun b => b) vc.root, vc.aliases, []⟩

/-- Erase the visibility flags of a tree (specification helper): two trees
are "identical except for the public flags" exactly when their `stripPub`
images are equal. -/
def stripPub (it : VersionedItem) : VersionedItem :=
  mapItem (fun n => n) (fun _ => true) it

/-- Functorial action on resolver results (specification helper). -/
def itemMapR (g : VersionedItem → VersionedItem) : RRes VersionedItem → RRes VersionedItem
  | .fuelOut => .fuelOut
  | .panicked => .panicked
  | .ok none => .ok none
  | .ok (some x) => .ok (some (g x))

/-- Outcome of one alias candidate of the miss-handling loop, written from
the claim's candidate-by-candidate reading: `none` means the candidate is
skipped in favour of the next one, `some r` means the candidate is committed
and the whole resolution returns `r`.  A Named candidate whose local name
differs from the popped segment is skipped; a matching Named candidate is
always committed.  A GlobChildren candidate is skipped when its target fails
to resolve absolutely (after a failed or childless relative re-rooting) or
when the resolved target has no child named the popped segment; otherwise it
is committed. -/
def alias_candidate_outcome
    (recur : VersionedItem → List String → List String → RRes VersionedItem)
    (vc : VersionConstructor) (puh : List String) (l : String)
    (last : Option VersionedItem) (remaining : List String) (a : Alias) :
    Option (RRes VersionedItem) :=
  match a.local_ with
  | .named name =>
    if name = l then
      some (match lastOr recur vc last puh with
        | .fuelOut => .fuelOut
        | .panicked => .panicked
        | .ok none => .panicked
        | .ok (some lastItem) =>
          match recur lastItem puh a.relative_path with
          | .fuelOut => .fuelOut
          | .panicked => .panicked
          | .ok (some new_root) => recur new_root (puh ++ a.relative_path) remaining
          | .ok none =>
            match recur vc.root [] a.relative_path with
            | .fuelOut => .fuelOut
            | .panicked => .panicked
            | .ok none => .ok none
            | .ok (some new_root) => recur new_root a.relative_path remaining)
    else none
  | .globChildren =>
    match lastOr recur vc last puh with
    | .fuelOut => some .fuelOut
    | .panicked => some .panicked
    | .ok none => some .panicked
    | .ok (some lastItem) =>
      match recur lastItem puh a.relative_path with
      | .fuelOut => some .fuelOut
      | .panicked => some .panicked
      | .ok (some new_root) =>
        if (getChild new_root.children l).isSome then
          some (recur new_root (puh ++ a.relative_path) remaining)
        else
          match recur vc.root [] a.relative_path with
          | .fuelOut => some .fuelOut
          | .panicked => some .panicked
          | .ok none => none
          | .ok (some new_root2) =>
            if (getChild new_root2.children l).isSome then
              some (recur new_root2 a.relative_path remaining)
            else none
      | .ok none =>
        match recur vc.root [] a.relative_path with
        | .fuelOut => some .fuelOut
        | .panicked => some .panicked
        | .ok none => none
        | .ok (some new_root2) =>
          if (getChild new_root2.children l).isSome then
            some (recur new_root2 a.relative_path remaining)
          else none

/-- First committed candidate of a candidate list (specification helper):
skipped candidates (`none` outcomes) are passed over in order, the first
committed outcome is returned, and the list running out yields the defined
failure `ok none`. -/
def first_committed (co : Alias → Option (RRes VersionedItem)) :
    List Alias → RRes VersionedItem
  | [] => .ok none
  | a :: rest =>
    match co a with
    | none => first_committed co rest
    | some r => r

/-- Types as traversed by `VersionAnalyzer::process_type` (src/analyzer.rs
lines 435-466).  Variants the source leaves to the catch-all arm
(ImplTrait, Infer, Macro, Never, TraitObject, Verbatim) are `other`.
Paths are already the segment-ident lists `process_path` extracts. -/
inductive ATy : Type where
  | array : ATy → ATy
  | bareFn : Option ATy → List ATy → ATy
  | group : ATy → ATy
  | paren : ATy → ATy
  | path : List String → ATy
  | ptr : ATy → ATy
  | ref : ATy → ATy
  | slice : ATy → ATy
  | tuple : List ATy → ATy
  | other : ATy

/-- Function signature as consumed by `process_sig` (lines 187-197): the
typed inputs (`none` models a receiver argument, which `process_sig`
skips), the optional return type, and the `unsafety` marker checked by the
fn-item handlers. -/
structure ASig : Type where
  inputs : List (Option ATy)
  output : Option ATy
  unsafety : Bool

/-- `syn::UseTree` as traversed by `VersionAnalyzer::process_use_tree`
(lines 409-432). -/
inductive AUseTree : Type where
  | path : String → AUseTree → AUseTree
  | name : String → AUseTree
  | rename : String → AUseTree
  | glob : AUseTree
  | group : List AUseTree → AUseTree

mutual
/-- Expressions as traversed by `VersionAnalyzer::process_expr`
(src/analyzer.rs lines 222-360).  Blocks are statement lists.  The variants
the source leaves to the catch-all arm (Continue, Field, Infer, Lit, Macro,
Verbatim) are `other`; match arms are (optional guard, body) pairs. -/
inductive AExpr : Type where
  | array : List AExpr → AExpr
  | assign : AExpr → AExpr → AExpr
  | asyncE : List AStmt → AExpr
  | awaitE : AExpr → AExpr
  | binary : AExpr → AExpr → AExpr
  | blockE : List AStmt → AExpr
  | breakE : Option AExpr → AExpr
  | call : AExpr → List AExpr → AExpr
  | cast : AExpr → ATy → AExpr
  | closure : Option ATy → AExpr → AExpr
  | constE : List AStmt → AExpr
  | forLoop : AExpr → List AStmt → AExpr
  | group : AExpr → AExpr
  | ifE : AExpr → List AStmt → Option AExpr → AExpr
  | index : AExpr → AExpr → AExpr
  | letE : AExpr → AExpr
  | loopE : List AStmt → AExpr
  | matchE : AExpr → List (Option AExpr × AExpr) → AExpr
  | methodCall : AExpr → List AExpr → AExpr
  | paren : AExpr → AExpr
  | pathE : List String → AExpr
  | range : Option AExpr → Option AExpr → AExpr
  | ref : AExpr → AExpr
  | repeatE : AExpr → AExpr → AExpr
  | ret : Option AExpr → AExpr
  | structE : List String → List AExpr → AExpr
  | tryE : AExpr → AExpr
  | tryBlock : List AStmt → AExpr
  | tuple : List AExpr → AExpr
  | unary : AExpr → AExpr
  | unsafeE : List AStmt → AExpr
  | whileE : AExpr → List AStmt → AExpr
  | yieldE : Option AExpr → AExpr
  | other : AExpr

/-- Statements as traversed by `process_statement` (lines 205-220): a Local
carries the optional init (expr, optional diverge expr); Macro statements
are ignored. -/
inductive AStmt : Type where
  | localS : Option (AExpr × Option AExpr) → AStmt
  | itemS : AItem → AStmt
  | exprS : AExpr → AStmt
  | macroS : AStmt

/-- Items as traversed by `VersionAnalyzer::process_item` (lines 36-56).
Enum variants are (optional discriminant, field types) pairs; struct fields
are the field-type list (Named and Unnamed fields are walked identically);
an impl carries the optional trait path and its items; a mod carries its
optional content.  Kinds the analyzer leaves to the catch-all arm
(ExternCrate, ForeignMod, Macro, TraitAlias, Union, Verbatim) are `other`. -/
inductive AItem : Type where
  | constI : ATy → AExpr → AItem
  | enumI : List (Option AExpr × List ATy) → AItem
  | fnI : ASig → List AStmt → AItem
  | implI : Option (List String) → List AImplItem → AItem
  | modI : String → Option (List AItem) → AItem
  | staticI : ATy → AExpr → AItem
  | structI : List ATy → AItem
  | traitI : List ATraitItem → AItem
  | typeI : ATy → AItem
  | useI : AUseTree → AItem
  | other : AItem

/-- Impl items as traversed by `process_impl_item` (lines 149-173). -/
inductive AImplItem : Type where
  | constI : ATy → AExpr → AImplItem
  | fnI : ASig → List AStmt → AImplItem
  | typeI : ATy → AImplItem
  | other : AImplItem

/-- Trait items as traversed by `process_item_trait` (lines 62-87). -/
inductive ATraitItem : Type where
  | constI : ATy → Option AExpr → ATraitItem
  | fnI : ASig → Option (List AStmt) → ATraitItem
  | typeI : Option ATy → ATraitItem
  | other : ATraitItem
end

/-- Mutable state of `VersionAnalyzer` (src/analyzer.rs lines 5-14): the
module path stack, the unsafe-nesting depth (`nested_unsafe` in the
source), the per-version counts, and the two expression counters. -/
structure AState : Type where
  path : List String
  unsafeDepth : Nat
  version_counts : List (String × Nat)
  total_exprs : Nat
  unsafe_exprs : Nat

/-- The fresh state of `VersionAnalyzer::new`. -/
def AState.new : AState := ⟨[], 0, [], 0, 0⟩

/-- `VersionAnalyzer::count_expr` (lines 476-482): every call increments
`total_exprs`; when the nesting depth is positive it also increments
`unsafe_exprs`. -/
def count_expr (s : AState) : AState :=
  { s with total_exprs := s.total_exprs + 1,
           unsafe_exprs := if 0 < s.unsafeDepth then s.unsafe_exprs + 1 else s.unsafe_exprs }

/-- `VersionAnalyzer::count_version` (lines 468-474): increment the count of
the version key, inserting it at count 1 if absent. -/
def bumpCount : List (String × Nat) → String → List (String × Nat)
  | [], v => [(v, 1)]
  | (k, n) :: rest, v => if k = v then (k, n + 1) :: rest else (k, n) :: bumpCount rest v

/-- `VersionAnalyzer::process_relative_path` (lines 373-389): submit the
path to the resolver; a hit bumps its version count, a miss is silent.
`getv` abstracts the borrowed `VersionConstructor`'s `get_version`. -/
def process_relative_path (getv : List String → Option String) (p : List String)
    (s : AState) : AState :=
  match getv p with
  | some v => { s with version_counts := bumpCount s.version_counts v }
  | none => s

/-- `VersionAnalyzer::process_path` (lines 362-371): the segment idents are
already a list in this embedding. -/
def process_path (getv : List String → Option String) (p : List String) (s : AState) : AState :=
  process_relative_path getv p s

mutual
/-- `VersionAnalyzer::process_type` (src/analyzer.rs lines 435-466): walk a
type, submitting every path position to the resolver; never counts an
expression. -/
def processTy (getv : List String → Option String) : ATy → AState → AState
  | .array elem, s => processTy getv elem s
  | .bareFn output inputs, s =>
    let s := match output with
      | some ty => processTy getv ty s
      | none => s
    processTyList getv inputs s
  | .group elem, s => processTy getv elem s
  | .paren elem, s => processTy getv elem s
  | .path p, s => process_path getv p s
  | .ptr elem, s => processTy getv elem s
  | .ref elem, s => processTy getv elem s
  | .slice elem, s => processTy getv elem s
  | .tuple elems, s => processTyList getv elems s
  | .other, s => s

/-- Sequential `process_type` over a type list. -/
def processTyList (getv : List String → Option String) : List ATy → AState → AState
  | [], s => s
  | t :: rest, s => processTyList getv rest (processTy getv t s)
end

/-- `process_type` over an optional type. -/
def processTyOpt (getv : List String → Option String) : Option ATy → AState → AState
  | none, s => s
  | some t, s => processTy getv t s

/-- `VersionAnalyzer::process_sig` (lines 187-197): the typed inputs in
order (receivers skipped), then the return type. -/
def process_sig (getv : List String → Option String) (sig : ASig) (s : AState) : AState :=
  let s := sig.inputs.foldl (fun s arg => match arg with
    | some ty => processTy getv ty s
    | none => s) s
  processTyOpt getv sig.output s

mutual
/-- `VersionAnalyzer::process_use_tree` (lines 409-432): accumulate the
segment chain; Name and Rename leaves submit the accumulated path (pushing
`ident`, not the rename target); Glob is a no-op. -/
def processUseTree (getv : List String → Option String) (relative_path : List String) :
    AUseTree → AState → AState
  | .path seg t, s => processUseTree getv (relative_path ++ [seg]) t s
  | .name seg, s => process_relative_path getv (relative_path ++ [seg]) s
  | .rename seg, s => process_relative_path getv (relative_path ++ [seg]) s
  | .glob, s => s
  | .group items, s => processUseTreeList getv relative_path items s

/-- Sequential `process_use_tree` over a group's members. -/
def processUseTreeList (getv : List String → Option String) (relative_path : List String) :
    List AUseTree → AState → AState
  | [], s => s
  | t :: rest, s => processUseTreeList getv relative_path rest (processUseTree getv relative_path t s)
end

mutual
/-- `VersionAnalyzer::process_expr` (src/analyzer.rs lines 222-360): count
the node first (`count_expr`), then recurse per variant; the Unsafe variant
raises the nesting depth around its block. -/
def processExpr (getv : List String → Option String) : AExpr → AState → AState
  | .array elems, s => processExprList getv elems (count_expr s)
  | .assign l r, s => processExpr getv r (processExpr getv l (count_expr s))
  | .asyncE stmts, s => processStmtList getv stmts (count_expr s)
  | .awaitE e, s => processExpr getv e (count_expr s)
  | .binary l r, s => processExpr getv r (processExpr getv l (count_expr s))
  | .blockE stmts, s => processStmtList getv stmts (count_expr s)
  | .breakE oe, s => processExprOpt getv oe (count_expr s)
  | .call f args, s => processExprList getv args (processExpr getv f (count_expr s))
  | .cast e ty, s => processTy getv ty (processExpr getv e (count_expr s))
  | .closure oty body, s => processExpr getv body (processTyOpt getv oty (count_expr s))
  | .constE stmts, s => processStmtList getv stmts (count_expr s)
  | .forLoop e body, s => processStmtList getv body (processExpr getv e (count_expr s))
  | .group e, s => processExpr getv e (count_expr s)
  | .ifE cond thenB elseE, s =>
    processExprOpt getv elseE (processStmtList getv thenB (processExpr getv cond (count_expr s)))
  | .index e i, s => processExpr getv i (processExpr getv e (count_expr s))
  | .letE e, s => processExpr getv e (count_expr s)
  | .loopE body, s => processStmtList getv body (count_expr s)
  | .matchE e arms, s => processArmList getv arms (processExpr getv e (count_expr s))
  | .methodCall recv args, s => processExprList getv args (processExpr getv recv (count_expr s))
  | .paren e, s => processExpr getv e (count_expr s)
  | .pathE p, s => process_path getv p (count_expr s)
  | .range lo hi, s => processExprOpt getv hi (processExprOpt getv lo (count_expr s))
  | .ref e, s => processExpr getv e (count_expr s)
  | .repeatE e len, s => processExpr getv len (processExpr getv e (count_expr s))
  | .ret oe, s => processExprOpt getv oe (count_expr s)
  | .structE p fields, s => processExprList getv fields (process_path getv p (count_expr s))
  | .tryE e, s => processExpr getv e (count_expr s)
  | .tryBlock stmts, s => processStmtList getv stmts (count_expr s)
  | .tuple elems, s => processExprList getv elems (count_expr s)
  | .unary e, s => processExpr getv e (count_expr s)
  | .unsafeE stmts, s =>
    let s := count_expr s
    let s := { s with unsafeDepth := s.unsafeDepth + 1 }
    let s := processStmtList getv stmts s
    { s with unsafeDepth := s.unsafeDepth - 1 }
  | .whileE cond body, s => processStmtList getv body (processExpr getv cond (count_expr s))
  | .yieldE oe, s => processExprOpt getv oe (count_expr s)
  | .other, s => count_expr s

/-- `process_expr` over an optional expression (a `None` is a no-op). -/
def processExprOpt (getv : List String → Option String) : Option AExpr → AState → AState
  | none, s => s
  | some e, s => processExpr getv e s

/-- Sequential `process_expr` over an expression list. -/
def processExprList (getv : List String → Option String) : List AExpr → AState → AState
  | [], s => s
  | e :: rest, s => processExprList getv rest (processExpr getv e s)

/-- The match-arm loop of `process_expr` (lines 291-299): optional guard,
then body, per arm. -/
def processArmList (getv : List String → Option String) :
    List (Option AExpr × AExpr) → AState → AState
  | [], s => s
  | (guard, body) :: rest, s =>
    processArmList getv rest (processExpr getv body (processExprOpt getv guard s))

/-- `VersionAnalyzer::process_statement` (lines 205-220). -/
def processStmt (getv : List String → Option String) : AStmt → AState → AState
  | .localS none, s => s
  | .localS (some (e, diverge)), s => processExprOpt getv diverge (processExpr getv e s)
  | .itemS item, s => processItem getv item s
  | .exprS e, s => processExpr getv e s
  | .macroS, s => s

/-- `VersionAnalyzer::process_block` (lines 199-203): the statements in
order. -/
def processStmtList (getv : List String → Option String) : List AStmt → AState → AState
  | [], s => s
  | st :: rest, s => processStmtList getv rest (processStmt getv st s)

/-- `VersionAnalyzer::process_item` (lines 36-56) with the per-kind handlers
inlined: const/static walk type then initializer; enums walk each variant's
discriminant then field types; fn items raise the unsafe depth around
signature and body when the signature is unsafe (lines 175-185); impls walk
the trait path, then their items; mods push/pop the module path around
their content; use items walk the use tree. -/
def processItem (getv : List String → Option String) : AItem → AState → AState
  | .constI ty e, s => processExpr getv e (processTy getv ty s)
  | .enumI variants, s => processVariantList getv variants s
  | .fnI sig body, s =>
    if sig.unsafety then
      let s := { s with unsafeDepth := s.unsafeDepth + 1 }
      let s := processStmtList getv body (process_sig getv sig s)
      { s with unsafeDepth := s.unsafeDepth - 1 }
    else processStmtList getv body (process_sig getv sig s)
  | .implI traitPath items, s =>
    let s := match traitPath with
      | some p => process_path getv p s
      | none => s
    processImplItemList getv items s
  | .modI _ none, s => s
  | .modI name (some items), s =>
    let s := { s with path := s.path ++ [name] }
    let s := processItemList getv items s
    { s with path := s.path.dropLast }
  | .staticI ty e, s => processExpr getv e (processTy getv ty s)
  | .structI fields, s => processTyList getv fields s
  | .traitI items, s => processTraitItemList getv items s
  | .typeI ty, s => processTy getv ty s
  | .useI tree, s => processUseTree getv [] tree s
  | .other, s => s

/-- The enum-variant loop of `process_item_enum` (lines 115-135). -/
def processVariantList (getv : List String → Option String) :
    List (Option AExpr × List ATy) → AState → AState
  | [], s => s
  | (disc, fields) :: rest, s =>
    processVariantList getv rest (processTyList getv fields (processExprOpt getv disc s))

/-- Sequential `process_item` over an item list. -/
def processItemList (getv : List String → Option String) : List AItem → AState → AState
  | [], s => s
  | it :: rest, s => processItemList getv rest (processItem getv it s)

/-- `VersionAnalyzer::process_impl_item` (lines 149-173): fn items raise the
unsafe depth around signature and body when unsafe. -/
def processImplItem (getv : List String → Option String) : AImplItem → AState → AState
  | .constI ty e, s => processExpr getv e (processTy getv ty s)
  | .fnI sig body, s =>
    if sig.unsafety then
      let s := { s with unsafeDepth := s.unsafeDepth + 1 }
      let s := processStmtList getv body (process_sig getv sig s)
      { s with unsafeDepth := s.unsafeDepth - 1 }
    else processStmtList getv body (process_sig getv sig s)
  | .typeI ty, s => processTy getv ty s
  | .other, s => s

/-- Sequential `process_impl_item` over an impl body. -/
def processImplItemList (getv : List String → Option String) : List AImplItem → AState → AState
  | [], s => s
  | it :: rest, s => processImplItemList getv rest (processImplItem getv it s)

/-- The trait-item loop of `process_item_trait` (lines 62-87): note that a
trait fn's default body is walked without any unsafe-depth handling. -/
def processTraitItem (getv : List String → Option String) : ATraitItem → AState → AState
  | .constI ty default, s => processExprOpt getv default (processTy getv ty s)
  | .fnI sig default, s =>
    let s := process_sig getv sig s
    match default with
    | some body => processStmtList getv body s
    | none => s
  | .typeI (some ty), s => processTy getv ty s
  | .typeI none, s => s
  | .other, s => s

/-- Sequential `process_trait_item` over a trait body. -/
def processTraitItemList (getv : List String → Option String) : List ATraitItem → AState → AState
  | [], s => s
  | it :: rest, s => processTraitItemList getv rest (processTraitItem getv it s)
end

/-- `VersionAnalyzer::process_file` (lines 30-34): the top-level items in
order, from the fresh analyzer state. -/
def process_file (getv : List String → Option String) (items : List AItem) : AState :=
  processItemList getv items AState.new

/-- Pointwise sum of (total, unsafe) counter pairs (specification helper). -/
def addP (a b : Nat × Nat) : Nat × Nat := (a.1 + b.1, a.2 + b.2)

/-- If the walk is currently in an unsafe context (`inU`), one counted
expression node contributes (1, 1), otherwise (1, 0) (specification
helper mirroring `count_expr`). -/
def nodeP (inU : Bool) : Nat × Nat := (1, if inU then 1 else 0)

/-- The counter effect of one walker call (specification helper): the
unsafe-nesting depth is restored, `total_exprs` grows by `c.1` and
`unsafe_exprs` by `c.2`. -/
def Steps (c : Nat × Nat) (s s' : AState) : Prop :=
  s'.unsafeDepth = s.unsafeDepth ∧
  s'.total_exprs = s.total_exprs + c.1 ∧
  s'.unsafe_exprs = s.unsafe_exprs + c.2

mutual
/-- Specification count of an expression subtree: how many expression nodes
`process_expr` visits in it, and how many of those are visited while the
unsafe-nesting depth is positive, given whether the surrounding depth is
already positive (`inU`).  The node itself is counted at the surrounding
depth; an `unsafeE` block's children are counted in an unsafe context. -/
def countsE (inU : Bool) : AExpr → Nat × Nat
  | .array elems => addP (nodeP inU) (countsEList inU elems)
  | .assign l r => addP (nodeP inU) (addP (countsE inU l) (countsE inU r))
  | .asyncE stmts => addP (nodeP inU) (countsSList inU stmts)
  | .awaitE e => addP (nodeP inU) (countsE inU e)
  | .binary l r => addP (nodeP inU) (addP (countsE inU l) (countsE inU r))
  | .blockE stmts => addP (nodeP inU) (countsSList inU stmts)
  | .breakE oe => addP (nodeP inU) (countsEOpt inU oe)
  | .call f args => addP (nodeP inU) (addP (countsE inU f) (countsEList inU args))
  | .cast e _ => addP (nodeP inU) (countsE inU e)
  | .closure _ body => addP (nodeP inU) (countsE inU body)
  | .constE stmts => addP (nodeP inU) (countsSList inU stmts)
  | .forLoop e body => addP (nodeP inU) (addP (countsE inU e) (countsSList inU body))
  | .group e => addP (nodeP inU) (countsE inU e)
  | .ifE cond thenB elseE =>
    addP (nodeP inU) (addP (countsE inU cond) (addP (countsSList inU thenB) (countsEOpt inU elseE)))
  | .index e i => addP (nodeP inU) (addP (countsE inU e) (countsE inU i))
  | .letE e => addP (nodeP inU) (countsE inU e)
  | .loopE body => addP (nodeP inU) (countsSList inU body)
  | .matchE e arms => addP (nodeP inU) (addP (countsE inU e) (countsArms inU arms))
  | .methodCall recv args => addP (nodeP inU) (addP (countsE inU recv) (countsEList inU args))
  | .paren e => addP (nodeP inU) (countsE inU e)
  | .pathE _ => nodeP inU
  | .range lo hi => addP (nodeP inU) (addP (countsEOpt inU lo) (countsEOpt inU hi))
  | .ref e => addP (nodeP inU) (countsE inU e)
  | .repeatE e len => addP (nodeP inU) (addP (countsE inU e) (countsE inU len))
  | .ret oe => addP (nodeP inU) (countsEOpt inU oe)
  | .structE _ fields => addP (nodeP inU) (countsEList inU fields)
  | .tryE e => addP (nodeP inU) (countsE inU e)
  | .tryBlock stmts => addP (nodeP inU) (countsSList inU stmts)
  | .tuple elems => addP (nodeP inU) (countsEList inU elems)
  | .unary e => addP (nodeP inU) (countsE inU e)
  | .unsafeE stmts => addP (nodeP inU) (countsSList true stmts)
  | .whileE cond body => addP (nodeP inU) (addP (countsE inU cond) (countsSList inU body))
  | .yieldE oe => addP (nodeP inU) (countsEOpt inU oe)
  | .other => nodeP inU

/-- `countsE` over an optional expression. -/
def countsEOpt (inU : Bool) : Option AExpr → Nat × Nat
  | none => (0, 0)
  | some e => countsE inU e

/-- `countsE` summed over an expression list. -/
def countsEList (inU : Bool) : List AExpr → Nat × Nat
  | [] => (0, 0)
  | e :: rest => addP (countsE inU e) (countsEList inU rest)

/-- `countsE` summed over match arms (guard and body). -/
def countsArms (inU : Bool) : List (Option AExpr × AExpr) → Nat × Nat
  | [] => (0, 0)
  | (guard, body) :: rest => addP (addP (countsEOpt inU guard) (countsE inU body)) (countsArms inU rest)

/-- Specification count for one statement. -/
def countsS (inU : Bool) : AStmt → Nat × Nat
  | .localS none => (0, 0)
  | .localS (some (e, diverge)) => addP (countsE inU e) (countsEOpt inU diverge)
  | .itemS item => countsI inU item
  | .exprS e => countsE inU e
  | .macroS => (0, 0)

/-- `countsS` summed over a block. -/
def countsSList (inU : Bool) : List AStmt → Nat × Nat
  | [] => (0, 0)
  | st :: rest => addP (countsS inU st) (countsSList inU rest)

/-- Specification count for one item: an unsafe fn's body is counted in an
unsafe context; a trait fn's default body is not (the analyzer never
raises the depth there). -/
def countsI (inU : Bool) : AItem → Nat × Nat
  | .constI _ e => countsE inU e
  | .enumI variants => countsVariants inU variants
  | .fnI sig body => countsSList (inU || sig.unsafety) body
  | .implI _ items => countsImplList inU items
  | .modI _ none => (0, 0)
  | .modI _ (some items) => countsIList inU items
  | .staticI _ e => countsE inU e
  | .structI _ => (0, 0)
  | .traitI items => countsTraitList inU items
  | .typeI _ => (0, 0)
  | .useI _ => (0, 0)
  | .other => (0, 0)

/-- `countsE` summed over enum variants (discriminants only; field types
contain no expressions). -/
def countsVariants (inU : Bool) : List (Option AExpr × List ATy) → Nat × Nat
  | [] => (0, 0)
  | (disc, _) :: rest => addP (countsEOpt inU disc) (countsVariants inU rest)

/-- `countsI` summed over an item list. -/
def countsIList (inU : Bool) : List AItem → Nat × Nat
  | [] => (0, 0)
  | it :: rest => addP (countsI inU it) (countsIList inU rest)

/-- Specification count for one impl item. -/
def countsImpl (inU : Bool) : AImplItem → Nat × Nat
  | .constI _ e => countsE inU e
  | .fnI sig body => countsSList (inU || sig.unsafety) body
  | .typeI _ => (0, 0)
  | .other => (0, 0)

/-- `countsImpl` summed over an impl body. -/
def countsImplList (inU : Bool) : List AImplItem → Nat × Nat
  | [] => (0, 0)
  | it :: rest => addP (countsImpl inU it) (countsImplList inU rest)

/-- Specification count for one trait item. -/
def countsTrait (inU : Bool) : ATraitItem → Nat × Nat
  | .constI _ default => countsEOpt inU default
  | .fnI _ default =>
    match default with
    | some body => countsSList inU body
    | none => (0, 0)
  | .typeI _ => (0, 0)
  | .other => (0, 0)

/-- `countsTrait` summed over a trait body. -/
def countsTraitList (inU : Bool) : List ATraitItem → Nat × Nat
  | [] => (0, 0)
  | it :: rest => addP (countsTrait inU it) (countsTraitList inU rest)
end

/-- `str::split` on a single separator character, over the character list:
"1.42.0" splits into ["1", "42", "0"], the empty string into [""]. -/
def splitOnChar (c : Char) : List Char → List (List Char)
  | [] => [[]]
  | x :: rest =>
    if x = c then [] :: splitOnChar c rest
    else
      match splitOnChar c rest with
      | [] => [[x]]
      | g :: gs => (x :: g) :: gs

/-- Decimal digit parse of a non-empty digit string
(`str::parse::<usize>`, modelled for plain digit strings). -/
def parseNatCore : List Char → Nat → Option Nat
  | [], acc => some acc
  | c :: rest, acc =>
    if c.isDigit then parseNatCore rest (acc * 10 + (c.toNat - 48)) else none

/-- `rust_version_to_number` (src/disk.rs lines 47-52): the minor-version
component, i.e. the segment at index 1 of the dot-split version string,
parsed as a number. -/
def rust_version_to_number (version : String) : Option Nat :=
  match (splitOnChar '.' version.data).get? 1 with
  | none => none
  | some [] => none
  | some (c :: cs) => parseNatCore (c :: cs) 0

/-- `Iterator::max` over a count list (used for
`versions.values().max()` in src/disk.rs line 67): `none` iff empty. -/
def listMax : List Nat → Option Nat
  | [] => none
  | n :: rest =>
    some (match listMax rest with
      | none => n
      | some m => Nat.max n m)

/-- `normalize_versions` (src/disk.rs lines 62-84) over the reals: an empty
map returns the neutral baseline 1; otherwise each entry gets weight
ln(count)/ln(max count), unparseable versions contribute to neither
accumulator, and the result is Σ(ordinal·weight)/Σ(weight).  The f32
arithmetic of the source is modelled exactly over ℝ except for division by
zero: IEEE yields NaN where the real-valued model yields the junk value 0 —
under both, such a result differs from every version ordinal. -/
noncomputable def normalize_versions (versions : List (String × Nat)) : ℝ :=
  if versions = [] then 1
  else
    let maxC : Nat := (listMax (versions.map Prod.snd)).getD 1
    let res : ℝ × ℝ := versions.foldl (fun p kv =>
      let weight : ℝ := Real.log (kv.2 : ℝ) / Real.log (maxC : ℝ)
      match rust_version_to_number kv.1 with
      | none => p
      | some n => (p.1 + (n : ℝ) * weight, p.2 + weight)) (0, 0)
    res.1 / res.2

/-- `q` is a proper prefix of `p` (specification helper). -/
def isProperPrefix (q p : List String) : Prop :=
  (∃ t, q ++ t = p) ∧ ¬ q = p

/-- Version/visibility view of the node a path descends to (specification
helper). -/
def descendVP (root : VersionedItem) (q : List String) : Option (String × Bool) :=
  (descend root q).map (fun n => (n.version, n.public))

/-- A resolver stub that never resolves (used to instantiate the walker on
concrete inputs where no standard-library reference occurs). -/
def noHits : List String → Option String := fun _ => none

/-- Concrete index for the C1 counterexample: symbols `a` (childless) and
`c::b` (version "1.5.0"), plus two root-scoped aliases for the local name
`a` — the first pointing at a nonexistent target, the second at `c`. -/
def vcC1 : VersionConstructor :=
  ⟨.mk "" "1.0.0" true
      [("a", .mk "" "1.0.0" true []),
       ("c", .mk "" "1.0.0" true [("b", .mk "" "1.5.0" true [])])],
   [⟨[], ["nope"], .named "a"⟩, ⟨[], ["c"], .named "a"⟩], []⟩

/-- The second alias of `vcC1` (the candidate the claim says should win). -/
def aliasC1 : Alias := ⟨[], ["c"], .named "a"⟩

/-- Concrete cyclic index for C2: a childless crate node `std` and the
synthetic root-scoped prelude glob alias that `load_version_constructor`
always appends (src/std_versions.rs lines 545-549); following the alias
re-resolves `std::prelude::v1`, whose own miss re-enters the same alias. -/
def vcC2 : VersionConstructor :=
  ⟨.mk "" "1.0.0" true [("std", .mk "" "1.0.0" true [])],
   [⟨[], ["std", "prelude", "v1"], .globChildren⟩], []⟩

/-- Concrete index for the C7 counterexample: symbols `a` (childless) and
`c::b` (version "1.5.0"), plus one root-scoped alias binding the local
name `a` to `c`. -/
def vcC7 : VersionConstructor :=
  ⟨.mk "" "1.0.0" true
      [("a", .mk "" "1.0.0" true []),
       ("c", .mk "" "1.0.0" true [("b", .mk "" "1.5.0" true [])])],
   [⟨[], ["c"], .named "a"⟩], []⟩

/-- Concrete index for C7's witness: a chain `m::x` with versions. -/
def vcC7w : VersionConstructor :=
  ⟨.mk "" "1.0.0" true
      [("m", .mk "" "1.2.0" true [("x", .mk "" "1.7.0" true [])])], [], []⟩

/-- Concrete index for C8, built exactly as the claim's scenario prescribes:
module `a` (present in the tree, childless), module `b` with public child
`Widget` stabilized at "1.10.0", and the GlobChildren alias recorded by
`process_use_tree` for `pub use b::*;` inside `a` (defining scope `["a"]`,
target `["b"]`). -/
def vcC8 : VersionConstructor :=
  ⟨.mk "" "1.0.0" true
      [("a", .mk "" "1.0.0" true []),
       ("b", .mk "" "1.0.0" true [("Widget", .mk "" "1.10.0" true [])])],
   [⟨["a"], ["b"], .globChildren⟩], []⟩

/-- Concrete tree for the C9 witness, with a non-public symbol `x`. -/
def treeC9a : VersionedItem :=
  .mk "" "1.0.0" true [("x", .mk "x" "1.3.0" false [])]

/-- The same tree as `treeC9a` except that `x` is public. -/
def treeC9b : VersionedItem :=
  .mk "" "1.0.0" true [("x", .mk "x" "1.3.0" true [])]

/-- The C3 scenario: a function body with two sibling unsafe blocks, each
wrapping exactly one expression, interleaved with three non-unsafe
expressions. -/
def c3Body : List AStmt :=
  [AStmt.exprS AExpr.other,
   AStmt.exprS (AExpr.unsafeE [AStmt.exprS AExpr.other]),
   AStmt.exprS AExpr.other,
   AStmt.exprS (AExpr.unsafeE [AStmt.exprS AExpr.other]),
   AStmt.exprS AExpr.other]

/-- The C3 scenario wrapped in a (non-unsafe) function item. -/
def c3Fn : AItem := AItem.fnI ⟨[], none, false⟩ c3Body

theorem try_aliases_eq_first_committed
    (recur : VersionedItem → List String → List String → RRes VersionedItem)
    (vc : VersionConstructor) (puh : List String) (l : String)
    (last : Option VersionedItem) (remaining : List String) (as : List Alias) :
    try_aliases recur vc puh l last remaining as
      = first_committed (alias_candidate_outcome recur vc puh l last remaining)
          (as.filter (fun a => a.root = puh)) := by
  induction as with
  | nil => rfl
  | cons a more ih =>
    by_cases h : a.root = puh
    · cases hl : a.local_ with
      | named name =>
        by_cases hn : name = l
        · simp [try_aliases, first_committed, alias_candidate_outcome, h, hn, hl,
            List.filter_cons]
        · simp [try_aliases, first_committed, alias_candidate_outcome, h, hn, hl,
            List.filter_cons, ih]
      | globChildren =>
        simp only [try_aliases, h, hl, if_true, List.filter_cons, decide_eq_true_eq, if_pos]
        cases hlo : lastOr recur vc last puh with
        | fuelOut => simp [first_committed, alias_candidate_outcome, hl, hlo]
        | panicked => simp [first_committed, alias_candidate_outcome, hl, hlo]
        | ok olast =>
          cases olast with
          | none => simp [first_committed, alias_candidate_outcome, hl, hlo]
          | some lastItem =>
            cases hr1 : recur lastItem puh a.relative_path with
            | fuelOut => simp [first_committed, alias_candidate_outcome, hl, hlo, hr1]
            | panicked => simp [first_committed, alias_candidate_outcome, hl, hlo, hr1]
            | ok or1 =>
              cases or1 with
              | some nr =>
                by_cases hc : (getChild nr.children l).isSome
                · simp [first_committed, alias_candidate_outcome, hl, hlo, hr1, hc]
                · cases hr2 : recur vc.root [] a.relative_path with
                  | fuelOut => simp [first_committed, alias_candidate_outcome, hl, hlo, hr1, hc, hr2]
                  | panicked => simp [first_committed, alias_candidate_outcome, hl, hlo, hr1, hc, hr2]
                  | ok or2 =>
                    cases or2 with
                    | none => simp [first_committed, alias_candidate_outcome, hl, hlo, hr1, hc, hr2, ih]
                    | some nr2 =>
                      by_cases hc2 : (getChild nr2.children l).isSome
                      · simp [first_committed, alias_candidate_outcome, hl, hlo, hr1, hc, hr2, hc2]
                      · simp [first_committed, alias_candidate_outcome, hl, hlo, hr1, hc, hr2, hc2, ih]
              | none =>
                cases hr2 : recur vc.root [] a.relative_path with
                | fuelOut => simp [first_committed, alias_candidate_outcome, hl, hlo, hr1, hr2]
                | panicked => simp [first_committed, alias_candidate_outcome, hl, hlo, hr1, hr2]
                | ok or2 =>
                  cases or2 with
                  | none => simp [first_committed, alias_candidate_outcome, hl, hlo, hr1, hr2, ih]
                  | some nr2 =>
                    by_cases hc2 : (getChild nr2.children l).isSome
                    · simp [first_committed, alias_candidate_outcome, hl, hlo, hr1, hr2, hc2]
                    · simp [first_committed, alias_candidate_outcome, hl, hlo, hr1, hr2, hc2, ih]
    · simp [try_aliases, h, List.filter_cons, ih]

theorem resolve_loop_miss
    (recur : VersionedItem → List String → List String → RRes VersionedItem)
    (vc : VersionConstructor) (rp : List String) (current : VersionedItem)
    (last : Option VersionedItem) (consumed : List String) (seg : String)
    (rest : List String) (hsuper : ¬ seg = "super") (hself : ¬ seg = "self")
    (hmiss : getChild current.children seg = none) :
    resolve_loop recur vc rp current last consumed (seg :: rest)
      = match (rp ++ consumed).getLast? with
        | none => .ok none
        | some l =>
          first_committed
            (alias_candidate_outcome recur vc ((rp ++ consumed).dropLast) l last (seg :: rest))
            (vc.aliases.filter (fun a => a.root = (rp ++ consumed).dropLast)) := by
  simp only [resolve_loop, hsuper, hself, hmiss, if_false, ite_false]
  cases hlast : (rp ++ consumed).getLast? with
  | none => simp
  | some l => simp [try_aliases_eq_first_committed]

theorem rpf_nil_rp (fuel : Nat) (vc : VersionConstructor) (root : VersionedItem)
    (p : List String) :
    resolve_path_from (fuel + 1) vc root [] p
      = resolve_loop (resolve_path_from fuel vc) vc [] root none [] p := by
  cases p <;> rfl

theorem resolve_loop_descend
    (recur : VersionedItem → List String → List String → RRes VersionedItem)
    (vc : VersionConstructor) (rp : List String) :
    ∀ (q : List String) (cur : VersionedItem) (last : Option VersionedItem)
      (consumed : List String) (n : VersionedItem), "super" ∉ q →
      descend cur (filterSelf q) = some n →
      resolve_loop recur vc rp cur last consumed q = .ok (some n) := by
  intro q
  induction q with
  | nil =>
    intro cur last consumed n _ hd
    simp [filterSelf, descend] at hd
    simp [resolve_loop, hd]
  | cons seg rest ih =>
    intro cur last consumed n hsuper hd
    have hs : ¬ seg = "super" := by intro h; exact hsuper (h ▸ List.mem_cons_self _ _)
    have hrest : "super" ∉ rest := fun h => hsuper (List.mem_cons_of_mem _ h)
    by_cases hself : seg = "self"
    · subst hself
      have hd' : descend cur (filterSelf rest) = some n := by
        simpa [filterSelf] using hd
      rw [resolve_loop]
      simp only [if_neg hs, if_pos rfl]
      exact ih cur last (consumed ++ ["self"]) n hrest hd'
    · have hd' : descend cur (seg :: filterSelf rest) = some n := by
        simpa [filterSelf, hself] using hd
      rw [descend] at hd'
      cases hc : getChild cur.children seg with
      | none => rw [hc] at hd'; exact absurd hd' (by simp)
      | some c =>
        rw [hc] at hd'
        rw [resolve_loop]
        simp only [if_neg hs, if_neg hself, hc]
        exact ih c (some cur) (consumed ++ [seg]) n hrest hd'

theorem c2_loop_aux :
    ∀ f, resolve_path_from f vcC2 vcC2.root [] ["std", "prelude", "v1"] = .fuelOut := by
  intro f
  induction f with
  | zero => rfl
  | succ f ih =>
    simp only [vcC2] at ih ⊢
    simp [resolve_path_from, resolve_loop, try_aliases, lastOr, getChild, rewriteRootPath, ih]

theorem filterSelf_idem (q : List String) : filterSelf (filterSelf q) = filterSelf q := by
  simp [filterSelf, List.filter_filter]

theorem super_not_mem_filterSelf (q : List String) (h : "super" ∉ q) :
    "super" ∉ filterSelf q := by
  intro hm
  exact h (List.mem_of_mem_filter hm)

/-- C1 (amended): when resolve misses a segment, the alias directives whose
`defining_scope` equals the search root (`root_path` plus the segments
consumed so far, minus the popped last segment) are tried in declaration
order.  Named candidates with a different local name are skipped, and
GlobChildren candidates are skipped when their target cannot be resolved or
lacks a child named the popped segment; but the first applicable candidate
is committed rather than merely tried — its continuation's outcome is
returned even when that continuation fails, so later candidates are not
reached.  The resolution returns `None` when the pop fails, when no
candidate is committed, or when the committed candidate's continuation
fails. -/
theorem c1_candidate_commitment :
    (∀ (recur : VersionedItem → List String → List String → RRes VersionedItem)
       (vc : VersionConstructor) (puh : List String) (l : String)
       (last : Option VersionedItem) (remaining : List String) (as : List Alias),
      try_aliases recur vc puh l last remaining as
        = first_committed (alias_candidate_outcome recur vc puh l last remaining)
            (as.filter (fun a => a.root = puh)))
    ∧ (∀ (recur : VersionedItem → List String → List String → RRes VersionedItem)
         (vc : VersionConstructor) (rp : List String) (current : VersionedItem)
         (last : Option VersionedItem) (consumed : List String) (seg : String)
         (rest : List String), ¬ seg = "super" → ¬ seg = "self" →
        getChild current.children seg = none →
        resolve_loop recur vc rp current last consumed (seg :: rest)
          = match (rp ++ consumed).getLast? with
            | none => .ok none
            | some l =>
              first_committed
                (alias_candidate_outcome recur vc ((rp ++ consumed).dropLast) l last
                  (seg :: rest))
                (vc.aliases.filter (fun a => a.root = (rp ++ consumed).dropLast))) :=
  ⟨try_aliases_eq_first_committed, resolve_loop_miss⟩

/-- C1 witness: the miss-handling equation of `c1_candidate_commitment` at a
concrete miss inside `vcC1` (segment "b" missing below the childless node
`a`, with the two root-scoped candidates of `vcC1`). -/
theorem c1_witness :
    (¬ ("b" : String) = "super") ∧ (¬ ("b" : String) = "self") ∧
    getChild (VersionedItem.mk "" "1.0.0" true []).children "b" = none ∧
    resolve_loop (resolve_path_from 9 vcC1) vcC1 [] (VersionedItem.mk "" "1.0.0" true [])
        (some vcC1.root) ["a"] ["b"]
      = match (([] : List String) ++ ["a"]).getLast? with
        | none => .ok none
        | some l =>
          first_committed
            (alias_candidate_outcome (resolve_path_from 9 vcC1) vcC1
              ((([] : List String) ++ ["a"]).dropLast) l (some vcC1.root) ["b"])
            (vcC1.aliases.filter (fun a => a.root = (([] : List String) ++ ["a"]).dropLast)) :=
  ⟨by decide, by decide, rfl,
    c1_candidate_commitment.2 (resolve_path_from 9 vcC1) vcC1 []
      (VersionedItem.mk "" "1.0.0" true []) (some vcC1.root) ["a"] "b" []
      (by decide) (by decide) rfl⟩

/-- C1 counterexample: in `vcC1` the resolution of `a::b` returns `None`
although a candidate with the required defining scope and local name — the
second alias, pointing at `c` — yields a successful continuation (the node
`c::b`, version "1.5.0").  The first candidate matches the name `a`, is
committed, fails, and aborts the search, so "each failing candidate is
skipped in favour of the next / the whole resolution returns None only if
no candidate succeeds" is false as stated. -/
theorem c1_counterexample :
    get_version 10 vcC1 ["a", "b"] = .ok none ∧
    vcC1.aliases.get? 1 = some aliasC1 ∧
    aliasC1.root = ([] : List String) ∧
    alias_candidate_outcome (resolve_path_from 9 vcC1) vcC1 [] "a" (some vcC1.root) ["b"] aliasC1
      = some (.ok (some (VersionedItem.mk "" "1.5.0" true []))) :=
  ⟨rfl, rfl, rfl, rfl⟩

/-- C2: on the concrete index `vcC2`, whose alias list is exactly the
synthetic prelude GlobChildren directive the loader always appends, the
resolution of `std::X` re-enters the resolution of `std::prelude::v1` from
the same arguments at every recursion depth: no recursion bound suffices,
i.e. the original code recurses unboundedly on a cyclic alias graph instead
of producing the defined resolution failure the claim requires. -/
theorem c2_no_cycle_guard :
    ∀ fuel, get_version fuel vcC2 ["std", "X"] = .fuelOut := by
  intro f
  match f with
  | 0 => rfl
  | f + 1 =>
    have ih := c2_loop_aux f
    simp only [vcC2] at ih ⊢
    simp [get_version, resolve_path_from, resolve_loop, try_aliases, lastOr, getChild,
      rewriteRootPath, ih]

/-- C3 counterexample: walking the claim's own scenario — a function body
with two sibling unsafe blocks, each wrapping one expression, interleaved
with three non-unsafe expressions — yields `total_exprs = 7`, not 5: each
unsafe block expression is itself visited and counted (at depth zero,
before the depth increment), adding two nodes to the five the claim
counts.  `unsafe_exprs = 2` holds. -/
theorem c3_counterexample :
    (processItem noHits c3Fn AState.new).total_exprs = 7 ∧
    (processItem noHits c3Fn AState.new).unsafe_exprs = 2 ∧
    ¬ (processItem noHits c3Fn AState.new).total_exprs = 5 :=
  ⟨rfl, rfl, by decide⟩

/-- C6: the shorthand rewrite of `resolve_path_from` recognizes exactly the
two first segments "crate" and "alloc_crate", and only when both
`root_path` and `path` are non-empty: "crate" restarts from the index
root's child named by `root_path`'s first segment with `root_path`
shortened to that segment; "alloc_crate" restarts from the child "alloc"
with `root_path` `["alloc"]`; any other first segment — and any first
segment at all when `root_path` is empty — falls through to the literal
descent loop. -/
theorem c6_crate_shorthands :
    (∀ (fuel : Nat) (vc : VersionConstructor) (root : VersionedItem) (r0 : String)
       (rtail ptail : List String),
      resolve_path_from (fuel + 1) vc root (r0 :: rtail) ("crate" :: ptail)
        = match getChild vc.root.children r0 with
          | none => .ok none
          | some new_root => resolve_path_from fuel vc new_root [r0] ptail)
    ∧ (∀ (fuel : Nat) (vc : VersionConstructor) (root : VersionedItem) (r0 : String)
         (rtail ptail : List String),
        resolve_path_from (fuel + 1) vc root (r0 :: rtail) ("alloc_crate" :: ptail)
          = match getChild vc.root.children "alloc" with
            | none => .ok none
            | some new_root => resolve_path_from fuel vc new_root ["alloc"] ptail)
    ∧ (∀ (fuel : Nat) (vc : VersionConstructor) (root : VersionedItem) (r0 p0 : String)
         (rtail ptail : List String), ¬ p0 = "crate" → ¬ p0 = "alloc_crate" →
        resolve_path_from (fuel + 1) vc root (r0 :: rtail) (p0 :: ptail)
          = resolve_loop (resolve_path_from fuel vc) vc (rewriteRootPath (r0 :: rtail))
              root none [] (p0 :: ptail))
    ∧ (∀ (fuel : Nat) (vc : VersionConstructor) (root : VersionedItem) (p : List String),
        resolve_path_from (fuel + 1) vc root [] p
          = resolve_loop (resolve_path_from fuel vc) vc [] root none [] p) := by
  refine ⟨fun fuel vc root r0 rtail ptail => rfl, fun fuel vc root r0 rtail ptail => rfl,
    fun fuel vc root r0 p0 rtail ptail h1 h2 => ?_, rpf_nil_rp⟩
  simp [resolve_path_from, h1, h2]

/-- C6 witness: the literal-match equation of `c6_crate_shorthands` at a
concrete non-shorthand first segment. -/
theorem c6_witness :
    (¬ ("x" : String) = "crate") ∧ (¬ ("x" : String) = "alloc_crate") ∧
    resolve_path_from 3 vcC7w vcC7w.root ["m"] ["x"]
      = resolve_loop (resolve_path_from 2 vcC7w) vcC7w (rewriteRootPath ["m"]) vcC7w.root
          none [] ["x"] :=
  ⟨by decide, by decide,
    c6_crate_shorthands.2.2.1 2 vcC7w vcC7w.root "m" "x" [] [] (by decide) (by decide)⟩

/-- C7 (amended): a "super" segment makes the descent loop return `None`
immediately, and a "self" segment is skipped without consuming a child
lookup.  The claimed consequence holds for pure descents: whenever the
plain tree walk of the self-filtered path succeeds, the path and its
self-filtered form resolve to that same node.  It does not hold for
resolutions that fall back to the alias search, because the skipped "self"
segments are still recorded in the consumed-segment list that determines
the alias search scope (see the counterexample). -/
theorem c7_reserved_segments :
    (∀ (recur : VersionedItem → List String → List String → RRes VersionedItem)
       (vc : VersionConstructor) (rp : List String) (current : VersionedItem)
       (last : Option VersionedItem) (consumed rest : List String),
      resolve_loop recur vc rp current last consumed ("super" :: rest) = .ok none)
    ∧ (∀ (recur : VersionedItem → List String → List String → RRes VersionedItem)
         (vc : VersionConstructor) (rp : List String) (current : VersionedItem)
         (last : Option VersionedItem) (consumed rest : List String),
        resolve_loop recur vc rp current last consumed ("self" :: rest)
          = resolve_loop recur vc rp current last (consumed ++ ["self"]) rest)
    ∧ (∀ (vc : VersionConstructor) (q : List String) (n : VersionedItem) (fuel : Nat),
        "super" ∉ q → descend vc.root (filterSelf q) = some n →
        get_version (fuel + 1) vc q = .ok (some n.version) ∧
        get_version (fuel + 1) vc (filterSelf q) = .ok (some n.version)) := by
  refine ⟨fun recur vc rp current last consumed rest => rfl,
    fun recur vc rp current last consumed rest => rfl, fun vc q n fuel hsuper hd => ?_⟩
  have h1 := resolve_loop_descend (resolve_path_from fuel vc) vc [] q vc.root none [] n
    hsuper hd
  have h2 := resolve_loop_descend (resolve_path_from fuel vc) vc [] (filterSelf q) vc.root
    none [] n (super_not_mem_filterSelf q hsuper) (by rwa [filterSelf_idem])
  constructor
  · simp [get_version, rpf_nil_rp, h1]
  · simp [get_version, rpf_nil_rp, h2]

/-- C7 witness: the pure-descent part of `c7_reserved_segments` on the
concrete index `vcC7w` and the path `m::self::x`. -/
theorem c7_witness :
    ("super" ∉ ["m", "self", "x"]) ∧
    descend vcC7w.root (filterSelf ["m", "self", "x"])
      = some (VersionedItem.mk "" "1.7.0" true []) ∧
    get_version 3 vcC7w ["m", "self", "x"] = .ok (some "1.7.0") ∧
    get_version 3 vcC7w ["m", "x"] = .ok (some "1.7.0") :=
  ⟨by decide, rfl,
    (c7_reserved_segments.2.2 vcC7w ["m", "self", "x"]
      (VersionedItem.mk "" "1.7.0" true []) 2 (by decide) rfl).1,
    (c7_reserved_segments.2.2 vcC7w ["m", "self", "x"]
      (VersionedItem.mk "" "1.7.0" true []) 2 (by decide) rfl).2⟩

/-- C7 counterexample: in `vcC7`, `a::b` resolves through the root-scoped
alias for `a` to version "1.5.0", but `a::self::b` — the same path with a
"self" segment inserted — returns `None`: the recorded consumed segments
`["a", "self"]` make the miss handler pop "self" and search the alias
scope `["a"]`, where no directive exists. -/
theorem c7_counterexample :
    filterSelf ["a", "self", "b"] = ["a", "b"] ∧
    get_version 10 vcC7 ["a", "b"] = .ok (some "1.5.0") ∧
    get_version 10 vcC7 ["a", "self", "b"] = .ok none :=
  ⟨rfl, rfl, rfl⟩

/-- C8: the claim's own scenario built exactly as the code records it —
`vcC8` holds `b::Widget` at "1.10.0" and the GlobChildren directive for
`pub use b::*;` with defining scope `["a"]` — yet resolving `a::Widget`
returns `None`: at the miss the code pops the already-matched segment "a"
and searches for candidates in scope `[]`, so the `["a"]`-scoped glob
directive is never considered and the spec's required answer "1.10.0" is
unreachable. -/
theorem c8_glob_reexport_fails :
    descend vcC8.root ["b", "Widget"] = some (VersionedItem.mk "" "1.10.0" true []) ∧
    vcC8.aliases = [⟨["a"], ["b"], .globChildren⟩] ∧
    get_version 10 vcC8 ["a", "Widget"] = .ok none :=
  ⟨rfl, rfl, rfl⟩

theorem getChild_setChild (cs : List (String × VersionedItem)) (s t : String)
    (v : VersionedItem) :
    getChild (setChild cs s v) t = if t = s then some v else getChild cs t := by
  induction cs with
  | nil =>
    by_cases h : t = s
    · subst h; simp [setChild, getChild]
    · simp [setChild, getChild, h, Ne.symm h]
  | cons kv rest ih =>
    obtain ⟨k, w⟩ := kv
    by_cases hk : k = s
    · subst hk
      by_cases h : k = t
      · subst h; simp [setChild, getChild]
      · simp [setChild, getChild, h, Ne.symm h]
    · by_cases h : k = t
      · subst h
        simp [setChild, getChild, hk]
      · simp [setChild, getChild, hk, h, ih]

theorem insertAt_keeps_vp (f : VersionedItem → VersionedItem) :
    ∀ (p : List String) (r : VersionedItem), ¬ filterSelf p = [] →
      (insertAt r p f).version = r.version ∧ (insertAt r p f).public = r.public := by
  intro p
  induction p with
  | nil => intro r h; exact absurd rfl h
  | cons s rest ih =>
    intro r h
    by_cases hs : s = "self"
    · subst hs
      have h' : ¬ filterSelf rest = [] := by simpa [filterSelf] using h
      simpa [insertAt] using ih r h'
    · simp [insertAt, hs, VersionedItem.version, VersionedItem.public]

theorem descendVP_nil (r : VersionedItem) : descendVP r [] = some (r.version, r.public) := rfl

theorem descendVP_cons_some {r c : VersionedItem} {t : String} (q : List String)
    (h : getChild r.children t = some c) : descendVP r (t :: q) = descendVP c q := by
  simp [descendVP, descend, h]

theorem descendVP_cons_none {r : VersionedItem} {t : String} (q : List String)
    (h : getChild r.children t = none) : descendVP r (t :: q) = none := by
  simp [descendVP, descend, h]

theorem descendVP_new (nm : String) (t : String) (q : List String) :
    descendVP (VersionedItem.new nm) (t :: q) = none :=
  descendVP_cons_none q rfl

theorem descendVP_insertAt_proper (f : VersionedItem → VersionedItem) :
    ∀ (p : List String) (r : VersionedItem) (q : List String), ¬ q = [] →
      isProperPrefix q (filterSelf p) →
      descendVP (insertAt r p f) q = some ((descendVP r q).getD ("1.0.0", true)) := by
  intro p
  induction p with
  | nil =>
    intro r q hq hp
    obtain ⟨⟨t, ht⟩, _⟩ := hp
    simp [filterSelf] at ht
    exact absurd ht.1 hq
  | cons s p' ih =>
    intro r q hq hp
    by_cases hs : s = "self"
    · subst hs
      have h1 : insertAt r ("self" :: p') f = insertAt r p' f := by simp [insertAt]
      have h2 : filterSelf ("self" :: p') = filterSelf p' := by simp [filterSelf]
      rw [h1]
      exact ih r q hq (h2 ▸ hp)
    · have hfs : filterSelf (s :: p') = s :: filterSelf p' := by simp [filterSelf, hs]
      rw [hfs] at hp
      obtain ⟨⟨t, ht⟩, hne⟩ := hp
      cases q with
      | nil => exact absurd rfl hq
      | cons t0 q' =>
        rw [List.cons_append] at ht
        injection ht with h1 h2
        subst h1
        have hins : insertAt r (t0 :: p') f
            = .mk r.name r.version r.public
                (setChild r.children t0
                  (insertAt ((getChild r.children t0).getD
                    (VersionedItem.new (r.name ++ "::" ++ t0))) p' f)) := by
          simp [insertAt, hs]
        have hcc : getChild (VersionedItem.mk r.name r.version r.public
            (setChild r.children t0
              (insertAt ((getChild r.children t0).getD
                (VersionedItem.new (r.name ++ "::" ++ t0))) p' f))).children t0
            = some (insertAt ((getChild r.children t0).getD
                (VersionedItem.new (r.name ++ "::" ++ t0))) p' f) := by
          simp [VersionedItem.children, getChild_setChild]
        rw [hins, descendVP_cons_some q' hcc]
        cases q' with
        | nil =>
          have hne' : ¬ filterSelf p' = [] := by
            intro h0
            exact hne (by rw [h0])
          have hvp := insertAt_keeps_vp f p'
            ((getChild r.children t0).getD (VersionedItem.new (r.name ++ "::" ++ t0))) hne'
          rw [descendVP_nil, hvp.1, hvp.2]
          cases hc : getChild r.children t0 with
          | some m => rw [descendVP_cons_some [] hc, descendVP_nil]; simp [hc]
          | none =>
            rw [descendVP_cons_none [] hc]
            simp [hc, VersionedItem.new, VersionedItem.version, VersionedItem.public]
        | cons t1 q'' =>
          have hprop : isProperPrefix (t1 :: q'') (filterSelf p') :=
            ⟨⟨t, h2⟩, fun heq => hne (by rw [heq])⟩
          rw [ih _ (t1 :: q'') (by simp) hprop]
          cases hc : getChild r.children t0 with
          | some m => rw [descendVP_cons_some (t1 :: q'') hc]; simp [hc]
          | none =>
            rw [descendVP_cons_none (t1 :: q'') hc]
            simp [hc, descendVP_new]

theorem descendVP_insertAt_other (f : VersionedItem → VersionedItem)
    (hf : ∀ it, (f it).children = it.children) :
    ∀ (p : List String) (r : VersionedItem) (q : List String), ¬ q = [] →
      (¬ ∃ t, q ++ t = filterSelf p) →
      descendVP (insertAt r p f) q = descendVP r q := by
  intro p
  induction p with
  | nil =>
    intro r q hq _
    cases q with
    | nil => exact absurd rfl hq
    | cons t0 q' =>
      have hfc : getChild (f r).children t0 = getChild r.children t0 := by rw [hf r]
      cases hc : getChild r.children t0 with
      | some c =>
        rw [show insertAt r [] f = f r from rfl,
          descendVP_cons_some q' (hfc.trans hc), descendVP_cons_some q' hc]
      | none =>
        rw [show insertAt r [] f = f r from rfl,
          descendVP_cons_none q' (hfc.trans hc), descendVP_cons_none q' hc]
  | cons s p' ih =>
    intro r q hq hnp
    by_cases hs : s = "self"
    · subst hs
      have h1 : insertAt r ("self" :: p') f = insertAt r p' f := by simp [insertAt]
      have h2 : filterSelf ("self" :: p') = filterSelf p' := by simp [filterSelf]
      rw [h1]
      exact ih r q hq (h2 ▸ hnp)
    · have hfs : filterSelf (s :: p') = s :: filterSelf p' := by simp [filterSelf, hs]
      rw [hfs] at hnp
      cases q with
      | nil => exact absurd rfl hq
      | cons t0 q' =>
        have hins : insertAt r (s :: p') f
            = .mk r.name r.version r.public
                (setChild r.children s
                  (insertAt ((getChild r.children s).getD
                    (VersionedItem.new (r.name ++ "::" ++ s))) p' f)) := by
          simp [insertAt, hs]
        by_cases ht0 : t0 = s
        · subst ht0
          cases q' with
          | nil => exact absurd ⟨filterSelf p', by simp⟩ hnp
          | cons t1 q'' =>
            have hnp' : ¬ ∃ t, (t1 :: q'') ++ t = filterSelf p' := by
              intro ⟨t, ht⟩
              exact hnp ⟨t, by simp [ht]⟩
            have hcc : getChild (VersionedItem.mk r.name r.version r.public
                (setChild r.children t0
                  (insertAt ((getChild r.children t0).getD
                    (VersionedItem.new (r.name ++ "::" ++ t0))) p' f))).children t0
                = some (insertAt ((getChild r.children t0).getD
                    (VersionedItem.new (r.name ++ "::" ++ t0))) p' f) := by
              simp [VersionedItem.children, getChild_setChild]
            rw [hins, descendVP_cons_some (t1 :: q'') hcc,
              ih _ (t1 :: q'') (by simp) hnp']
            cases hc : getChild r.children t0 with
            | some m => rw [descendVP_cons_some (t1 :: q'') hc]; simp [hc]
            | none =>
              rw [descendVP_cons_none (t1 :: q'') hc]
              simp [hc, descendVP_new]
        · have hgc : getChild (VersionedItem.mk r.name r.version r.public
              (setChild r.children s
                (insertAt ((getChild r.children s).getD
                  (VersionedItem.new (r.name ++ "::" ++ s))) p' f))).children t0
              = getChild r.children t0 := by
            simp [VersionedItem.children, getChild_setChild, ht0]
          cases hc : getChild r.children t0 with
          | some c =>
            rw [hins, descendVP_cons_some q' (hgc.trans hc), descendVP_cons_some q' hc]
          | none =>
            rw [hins, descendVP_cons_none q' (hgc.trans hc), descendVP_cons_none q' hc]

theorem push_version_children (version : String) (pub : Bool) (it : VersionedItem) :
    (VersionedItem.mk it.name version pub it.children).children = it.children := rfl

theorem buildIndex_fold_vp :
    ∀ (L : List Insertion) (r : VersionedItem) (q : List String), ¬ q = [] →
      (∀ i ∈ L, ¬ filterSelf i.path = q) →
      (descendVP r q = none ∨ descendVP r q = some ("1.0.0", true)) →
      (descendVP (L.foldl (fun acc ins => push_version_at acc ins.path ins.version ins.public) r) q = none ∨
       descendVP (L.foldl (fun acc ins => push_version_at acc ins.path ins.version ins.public) r) q = some ("1.0.0", true)) ∧
      (((∃ i ∈ L, isProperPrefix q (filterSelf i.path)) ∨ descendVP r q = some ("1.0.0", true)) →
        descendVP (L.foldl (fun acc ins => push_version_at acc ins.path ins.version ins.public) r) q = some ("1.0.0", true)) := by
  intro L
  induction L with
  | nil =>
    intro r q hq _ hstate
    refine ⟨hstate, fun h => ?_⟩
    rcases h with ⟨i, hi, _⟩ | h
    · exact absurd hi (List.not_mem_nil i)
    · exact h
  | cons i L' ih =>
    intro r q hq hne hstate
    have hne' : ∀ j ∈ L', ¬ filterSelf j.path = q := fun j hj => hne j (List.mem_cons_of_mem i hj)
    have hnei : ¬ filterSelf i.path = q := hne i (List.mem_cons_self i L')
    have hf : ∀ it : VersionedItem,
        ((fun (j : VersionedItem) => VersionedItem.mk j.name i.version i.public j.children) it).children
          = it.children :=
      fun it => rfl
    by_cases hpp : isProperPrefix q (filterSelf i.path)
    · have h1 : descendVP (push_version_at r i.path i.version i.public) q
          = some ((descendVP r q).getD ("1.0.0", true)) :=
        descendVP_insertAt_proper _ i.path r q hq hpp
      have h2 : descendVP (push_version_at r i.path i.version i.public) q
          = some ("1.0.0", true) := by
        rcases hstate with h | h <;> rw [h1, h] <;> rfl
      have := ih (push_version_at r i.path i.version i.public) q hq hne' (Or.inr h2)
      exact ⟨this.1, fun _ => this.2 (Or.inr h2)⟩
    · have hnp : ¬ ∃ t, q ++ t = filterSelf i.path := by
        intro ⟨t, ht⟩
        by_cases heq : q = filterSelf i.path
        · exact hnei heq.symm
        · exact hpp ⟨⟨t, ht⟩, heq⟩
      have h1 : descendVP (push_version_at r i.path i.version i.public) q = descendVP r q :=
        descendVP_insertAt_other _ hf i.path r q hq hnp
      have := ih (push_version_at r i.path i.version i.public) q hq hne' (h1 ▸ hstate)
      refine ⟨this.1, fun h => ?_⟩
      rcases h with ⟨j, hj, hjp⟩ | h
      · rcases List.mem_cons.mp hj with rfl | hj'
        · exact absurd hjp hpp
        · exact this.2 (Or.inl ⟨j, hj', hjp⟩)
      · exact this.2 (Or.inr (h1.trans h))

theorem filterSelf_of_not_mem {q : List String} (h : "self" ∉ q) : filterSelf q = q := by
  induction q with
  | nil => rfl
  | cons a rest ih =>
    have ha : ¬ a = "self" := fun hh => h (hh ▸ List.mem_cons_self a rest)
    have : "self" ∉ rest := fun hh => h (List.mem_cons_of_mem a hh)
    simp [filterSelf, ha] at ih ⊢
    exact ih this

/-- C10: every tree node created only as an ancestor during index insertion
(a prefix of some inserted path that is itself never the target of an
insertion) holds the default version "1.0.0" and is marked public, and
`get_version` on such a path returns `Some "1.0.0"`: a single unit of fuel
suffices because a pure descent triggers no alias recursion. -/
theorem c10_ancestor_default_version
    (inserts : List Insertion) (q : List String) (hq : ¬ q = [])
    (hsuper : "super" ∉ q) (hself : "self" ∉ q)
    (hne : ∀ i ∈ inserts, ¬ filterSelf i.path = q)
    (hpp : ∃ i ∈ inserts, isProperPrefix q (filterSelf i.path)) :
    descendVP (buildIndex inserts) q = some ("1.0.0", true) ∧
    (∀ (al : List Alias) (ps : List String) (fuel : Nat),
      get_version (fuel + 1) ⟨buildIndex inserts, al, ps⟩ q = .ok (some "1.0.0")) := by
  have hbase : descendVP (VersionedItem.new "") q = none := by
    cases q with
    | nil => exact absurd rfl hq
    | cons t q' => exact descendVP_new "" t q'
  have hvp := (buildIndex_fold_vp inserts (VersionedItem.new "") q hq hne
    (Or.inl hbase)).2 (Or.inl hpp)
  have hvp' : descendVP (buildIndex inserts) q = some ("1.0.0", true) := hvp
  refine ⟨hvp', fun al ps fuel => ?_⟩
  obtain ⟨n, hn, hproj⟩ : ∃ n, descend (buildIndex inserts) q = some n ∧
      (n.version, n.public) = ("1.0.0", true) := by
    have : (descend (buildIndex inserts) q).map (fun n => (n.version, n.public))
        = some ("1.0.0", true) := hvp'
    cases hd : descend (buildIndex inserts) q with
    | none => rw [hd] at this; exact absurd this (by simp)
    | some n => rw [hd] at this; exact ⟨n, rfl, by simpa using this⟩
  have hver : n.version = "1.0.0" := by
    have := congrArg Prod.fst hproj
    simpa using this
  have hloop := resolve_loop_descend (resolve_path_from fuel ⟨buildIndex inserts, al, ps⟩)
    ⟨buildIndex inserts, al, ps⟩ [] q (buildIndex inserts) none [] n hsuper
    (by rw [filterSelf_of_not_mem hself]; exact hn)
  simp [get_version, rpf_nil_rp, hloop, hver]

/-- C10 witness: a single insertion at `a::b` leaves the ancestor node `a`
at the default version "1.0.0", public, and `get_version` returns it. -/
theorem c10_witness :
    (¬ (["a"] : List String) = []) ∧ ("super" ∉ (["a"] : List String)) ∧
    ("self" ∉ (["a"] : List String)) ∧
    (∀ i ∈ [Insertion.mk ["a", "b"] "1.33.0" true], ¬ filterSelf i.path = ["a"]) ∧
    (∃ i ∈ [Insertion.mk ["a", "b"] "1.33.0" true], isProperPrefix ["a"] (filterSelf i.path)) ∧
    descendVP (buildIndex [Insertion.mk ["a", "b"] "1.33.0" true]) ["a"] = some ("1.0.0", true) ∧
    get_version 1 ⟨buildIndex [Insertion.mk ["a", "b"] "1.33.0" true], [], []⟩ ["a"]
      = .ok (some "1.0.0") := by
  have h1 : ¬ (["a"] : List String) = [] := by decide
  have h2 : "super" ∉ (["a"] : List String) := by decide
  have h3 : "self" ∉ (["a"] : List String) := by decide
  have h4 : ∀ i ∈ [Insertion.mk ["a", "b"] "1.33.0" true], ¬ filterSelf i.path = ["a"] := by
    intro i hi
    rcases List.mem_singleton.mp hi with rfl
    decide
  have h5 : ∃ i ∈ [Insertion.mk ["a", "b"] "1.33.0" true],
      isProperPrefix ["a"] (filterSelf i.path) :=
    ⟨Insertion.mk ["a", "b"] "1.33.0" true, List.mem_singleton.mpr rfl,
      ⟨⟨["b"], by decide⟩, by decide⟩⟩
  have main := c10_ancestor_default_version [Insertion.mk ["a", "b"] "1.33.0" true] ["a"]
    h1 h2 h3 h4 h5
  exact ⟨h1, h2, h3, h4, h5, main.1, main.2 [] [] 0⟩

theorem mapItem_children (fn : String → String) (fp : Bool → Bool) (x : VersionedItem) :
    (mapItem fn fp x).children = mapItem.mapChildren fn fp x.children := by
  cases x; rfl

theorem mapItem_version (fn : String → String) (fp : Bool → Bool) (x : VersionedItem) :
    (mapItem fn fp x).version = x.version := by
  cases x; rfl

theorem getChild_mapChildren (fn : String → String) (fp : Bool → Bool)
    (cs : List (String × VersionedItem)) (s : String) :
    getChild (mapItem.mapChildren fn fp cs) s = (getChild cs s).map (mapItem fn fp) := by
  induction cs with
  | nil => rfl
  | cons kv rest ih =>
    obtain ⟨k, c⟩ := kv
    by_cases h : k = s
    · simp [mapItem.mapChildren, getChild, h]
    · simp [mapItem.mapChildren, getChild, h, ih]

theorem lastOr_hom (fn : String → String) (fp : Bool → Bool)
    (recur recur' : VersionedItem → List String → List String → RRes VersionedItem)
    (hrec : ∀ it rp p, recur' (mapItem fn fp it) rp p = itemMapR (mapItem fn fp) (recur it rp p))
    (vc vc' : VersionConstructor) (hroot : vc'.root = mapItem fn fp vc.root)
    (last : Option VersionedItem) (puh : List String) :
    lastOr recur' vc' (last.map (mapItem fn fp)) puh
      = itemMapR (mapItem fn fp) (lastOr recur vc last puh) := by
  cases last with
  | some x => rfl
  | none =>
    show recur' vc'.root [] puh = _
    rw [hroot, hrec]
    rfl

theorem isSome_map_option {α β : Type} (g : α → β) (o : Option α) :
    (o.map g).isSome = o.isSome := by
  cases o <;> rfl

theorem try_aliases_hom (fn : String → String) (fp : Bool → Bool)
    (recur recur' : VersionedItem → List String → List String → RRes VersionedItem)
    (hrec : ∀ it rp p, recur' (mapItem fn fp it) rp p = itemMapR (mapItem fn fp) (recur it rp p))
    (vc vc' : VersionConstructor) (hroot : vc'.root = mapItem fn fp vc.root)
    (puh : List String) (l : String) (last : Option VersionedItem)
    (remaining : List String) (as : List Alias) :
    try_aliases recur' vc' puh l (last.map (mapItem fn fp)) remaining as
      = itemMapR (mapItem fn fp) (try_aliases recur vc puh l last remaining as) := by
  induction as with
  | nil => rfl
  | cons a more ih =>
    by_cases h : a.root = puh
    · cases hl : a.local_ with
      | named name =>
        by_cases hn : name = l
        · simp only [try_aliases, h, hl, hn, if_true, if_pos rfl]
          rw [lastOr_hom fn fp recur recur' hrec vc vc' hroot last puh]
          cases hlo : lastOr recur vc last puh with
          | fuelOut => rfl
          | panicked => rfl
          | ok olast =>
            cases olast with
            | none => rfl
            | some lastItem =>
              simp only [itemMapR]
              rw [hrec lastItem puh a.relative_path]
              cases hr1 : recur lastItem puh a.relative_path with
              | fuelOut => rfl
              | panicked => rfl
              | ok or1 =>
                cases or1 with
                | some new_root =>
                  simp only [itemMapR]
                  exact hrec new_root (puh ++ a.relative_path) remaining
                | none =>
                  simp only [itemMapR]
                  rw [hroot, hrec vc.root [] a.relative_path]
                  cases hr2 : recur vc.root [] a.relative_path with
                  | fuelOut => rfl
                  | panicked => rfl
                  | ok or2 =>
                    cases or2 with
                    | none => rfl
                    | some new_root =>
                      simp only [itemMapR]
                      exact hrec new_root a.relative_path remaining
        · simp only [try_aliases, h, hl, hn, if_true, if_false]
          exact ih
      | globChildren =>
        simp only [try_aliases, h, hl, if_true, if_pos rfl]
        rw [lastOr_hom fn fp recur recur' hrec vc vc' hroot last puh]
        cases hlo : lastOr recur vc last puh with
        | fuelOut => rfl
        | panicked => rfl
        | ok olast =>
          cases olast with
          | none => rfl
          | some lastItem =>
            simp only [itemMapR]
            rw [hrec lastItem puh a.relative_path]
            cases hr1 : recur lastItem puh a.relative_path with
            | fuelOut => rfl
            | panicked => rfl
            | ok or1 =>
              cases or1 with
              | some new_root =>
                simp only [itemMapR, mapItem_children, getChild_mapChildren,
                  isSome_map_option]
                by_cases hc : (getChild new_root.children l).isSome
                · simp only [hc, if_true]
                  exact hrec new_root (puh ++ a.relative_path) remaining
                · simp only [hc, if_false, Bool.false_eq_true]
                  rw [hroot, hrec vc.root [] a.relative_path]
                  cases hr2 : recur vc.root [] a.relative_path with
                  | fuelOut => rfl
                  | panicked => rfl
                  | ok or2 =>
                    cases or2 with
                    | none => exact ih
                    | some new_root2 =>
                      simp only [itemMapR, mapItem_children, getChild_mapChildren,
                        isSome_map_option]
                      by_cases hc2 : (getChild new_root2.children l).isSome
                      · simp only [hc2, if_true]
                        exact hrec new_root2 a.relative_path remaining
                      · simp only [hc2, if_false, Bool.false_eq_true]
                        exact ih
              | none =>
                simp only [itemMapR]
                rw [hroot, hrec vc.root [] a.relative_path]
                cases hr2 : recur vc.root [] a.relative_path with
                | fuelOut => rfl
                | panicked => rfl
                | ok or2 =>
                  cases or2 with
                  | none => exact ih
                  | some new_root2 =>
                    simp only [itemMapR, mapItem_children, getChild_mapChildren,
                      isSome_map_option]
                    by_cases hc2 : (getChild new_root2.children l).isSome
                    · simp only [hc2, if_true]
                      exact hrec new_root2 a.relative_path remaining
                    · simp only [hc2, if_false, Bool.false_eq_true]
                      exact ih
    · simp only [try_aliases, h, if_false]
      exact ih

theorem rpf_crate (fuel : Nat) (vc : VersionConstructor) (root : VersionedItem)
    (r0 : String) (rtail ptail : List String) :
    resolve_path_from (fuel + 1) vc root (r0 :: rtail) ("crate" :: ptail)
      = match getChild vc.root.children r0 with
        | none => .ok none
        | some new_root => resolve_path_from fuel vc new_root [r0] ptail := rfl

theorem rpf_alloc_crate (fuel : Nat) (vc : VersionConstructor) (root : VersionedItem)
    (r0 : String) (rtail ptail : List String) :
    resolve_path_from (fuel + 1) vc root (r0 :: rtail) ("alloc_crate" :: ptail)
      = match getChild vc.root.children "alloc" with
        | none => .ok none
        | some new_root => resolve_path_from fuel vc new_root ["alloc"] ptail := rfl

theorem rpf_literal (fuel : Nat) (vc : VersionConstructor) (root : VersionedItem)
    (r0 p0 : String) (rtail ptail : List String) (h1 : ¬ p0 = "crate")
    (h2 : ¬ p0 = "alloc_crate") :
    resolve_path_from (fuel + 1) vc root (r0 :: rtail) (p0 :: ptail)
      = resolve_loop (resolve_path_from fuel vc) vc (rewriteRootPath (r0 :: rtail))
          root none [] (p0 :: ptail) := by
  simp [resolve_path_from, h1, h2]

theorem resolve_loop_hom (fn : String → String) (fp : Bool → Bool)
    (recur recur' : VersionedItem → List String → List String → RRes VersionedItem)
    (hrec : ∀ it rp p, recur' (mapItem fn fp it) rp p = itemMapR (mapItem fn fp) (recur it rp p))
    (vc vc' : VersionConstructor) (hroot : vc'.root = mapItem fn fp vc.root)
    (hal : vc'.aliases = vc.aliases) :
    ∀ (path : List String) (current : VersionedItem) (last : Option VersionedItem)
      (consumed rp : List String),
      resolve_loop recur' vc' rp (mapItem fn fp current) (last.map (mapItem fn fp)) consumed path
        = itemMapR (mapItem fn fp) (resolve_loop recur vc rp current last consumed path) := by
  intro path
  induction path with
  | nil => intro current last consumed rp; rfl
  | cons seg rest ih =>
    intro current last consumed rp
    by_cases hsu : seg = "super"
    · subst hsu; rfl
    · by_cases hse : seg = "self"
      · subst hse
        rw [resolve_loop, resolve_loop]
        simp only [if_neg hsu, if_pos rfl]
        exact ih current last (consumed ++ ["self"]) rp
      · have hgc : getChild (mapItem fn fp current).children seg
            = (getChild current.children seg).map (mapItem fn fp) := by
          rw [mapItem_children, getChild_mapChildren]
        rw [resolve_loop, resolve_loop]
        simp only [if_neg hsu, if_neg hse]
        rw [hgc]
        cases hc : getChild current.children seg with
        | some next =>
          exact ih next (some current) (consumed ++ [seg]) rp
        | none =>
          cases hl : (rp ++ consumed).getLast? with
          | none => rfl
          | some l =>
            rw [hal]
            exact try_aliases_hom fn fp recur recur' hrec vc vc' hroot
              ((rp ++ consumed).dropLast) l last (seg :: rest) vc.aliases

theorem resolve_path_from_hom (fn : String → String) (fp : Bool → Bool)
    (vc : VersionConstructor) (ps' : List String) :
    ∀ (fuel : Nat) (root : VersionedItem) (rp p : List String),
      resolve_path_from fuel ⟨mapItem fn fp vc.root, vc.aliases, ps'⟩ (mapItem fn fp root) rp p
        = itemMapR (mapItem fn fp) (resolve_path_from fuel vc root rp p) := by
  intro fuel
  induction fuel with
  | zero => intro root rp p; rfl
  | succ fuel ih =>
    intro root rp p
    have hloop := resolve_loop_hom fn fp (resolve_path_from fuel vc)
      (resolve_path_from fuel ⟨mapItem fn fp vc.root, vc.aliases, ps'⟩) ih vc
      ⟨mapItem fn fp vc.root, vc.aliases, ps'⟩ rfl rfl
    cases rp with
    | nil =>
      rw [rpf_nil_rp, rpf_nil_rp]
      have := hloop p root none [] []
      simpa using this
    | cons r0 rtail =>
      cases p with
      | nil => rfl
      | cons p0 ptail =>
        by_cases hc : p0 = "crate"
        · subst hc
          rw [rpf_crate, rpf_crate]
          have hg : getChild (VersionConstructor.mk (mapItem fn fp vc.root) vc.aliases ps').root.children r0
              = (getChild vc.root.children r0).map (mapItem fn fp) := by
            show getChild (mapItem fn fp vc.root).children r0 = _
            rw [mapItem_children, getChild_mapChildren]
          rw [hg]
          cases hcc : getChild vc.root.children r0 with
          | none => rfl
          | some nr => exact ih nr [r0] ptail
        · by_cases ha : p0 = "alloc_crate"
          · subst ha
            rw [rpf_alloc_crate, rpf_alloc_crate]
            have hg : getChild (VersionConstructor.mk (mapItem fn fp vc.root) vc.aliases ps').root.children "alloc"
                = (getChild vc.root.children "alloc").map (mapItem fn fp) := by
              show getChild (mapItem fn fp vc.root).children "alloc" = _
              rw [mapItem_children, getChild_mapChildren]
            rw [hg]
            cases hcc : getChild vc.root.children "alloc" with
            | none => rfl
            | some nr => exact ih nr ["alloc"] ptail
          · rw [rpf_literal fuel vc root r0 p0 rtail ptail hc ha,
              rpf_literal fuel _ (mapItem fn fp root) r0 p0 rtail ptail hc ha]
            have := hloop (p0 :: ptail) root none [] (rewriteRootPath (r0 :: rtail))
            simpa using this

theorem get_version_mapItem (fn : String → String) (fp : Bool → Bool)
    (vc : VersionConstructor) (ps' path : List String) (fuel : Nat) :
    get_version fuel ⟨mapItem fn fp vc.root, vc.aliases, ps'⟩ path
      = get_version fuel vc path := by
  have h := resolve_path_from_hom fn fp vc ps' fuel vc.root [] path
  simp only [get_version]
  rw [h]
  cases hr : resolve_path_from fuel vc vc.root [] path with
  | fuelOut => rfl
  | panicked => rfl
  | ok o =>
    cases o with
    | none => rfl
    | some x => simp [itemMapR, mapItem_version]

/-- C5: serializing a built index and deserializing it preserves resolution:
the round trip resets only the `#[serde(skip)]` fields (every node `name`
and the `path_stack`), which `resolve_path_from` never reads, so
`get_version` agrees on the two indices at every fuel for every path — in
particular for every path that was resolvable before serialization. -/
theorem c5_snapshot_round_trip (vc : VersionConstructor) (path : List String) (fuel : Nat) :
    get_version fuel (serde_round_trip vc) path = get_version fuel vc path :=
  get_version_mapItem (fun _ => "") (fun b => b) vc [] path fuel

/-- C9: resolution never consults the recorded visibility: if two trees are
identical except for the `public` flags stored on their nodes (their
`stripPub` images coincide), then `get_version` on the corresponding
indices returns identical results for every path and fuel. -/
theorem c9_visibility_independence (t1 t2 : VersionedItem) (al : List Alias)
    (ps1 ps2 path : List String) (fuel : Nat) (h : stripPub t1 = stripPub t2) :
    get_version fuel ⟨t1, al, ps1⟩ path = get_version fuel ⟨t2, al, ps2⟩ path := by
  have e1 : get_version fuel ⟨mapItem (fun n => n) (fun _ => true) t1, al, []⟩ path
      = get_version fuel ⟨t1, al, ps1⟩ path :=
    get_version_mapItem (fun n => n) (fun _ => true) ⟨t1, al, ps1⟩ [] path fuel
  have e2 : get_version fuel ⟨mapItem (fun n => n) (fun _ => true) t2, al, []⟩ path
      = get_version fuel ⟨t2, al, ps2⟩ path :=
    get_version_mapItem (fun n => n) (fun _ => true) ⟨t2, al, ps2⟩ [] path fuel
  have h' : mapItem (fun n => n) (fun _ => true) t1
      = mapItem (fun n => n) (fun _ => true) t2 := h
  rw [← e1, h', e2]

/-- C9 witness: the two concrete trees differing only in the visibility of
`x` give the same resolution result for `x`. -/
theorem c9_witness :
    stripPub treeC9a = stripPub treeC9b ∧
    get_version 2 ⟨treeC9a, [], []⟩ ["x"] = get_version 2 ⟨treeC9b, [], []⟩ ["x"] :=
  ⟨rfl, c9_visibility_independence treeC9a treeC9b [] [] [] ["x"] 2 rfl⟩

theorem Steps_refl (s : AState) : Steps (0, 0) s s := ⟨rfl, rfl, rfl⟩

theorem Steps_comp {c1 c2 : Nat × Nat} {s s1 s2 : AState} (h1 : Steps c1 s s1)
    (h2 : Steps c2 s1 s2) : Steps (addP c1 c2) s s2 := by
  obtain ⟨d1, t1, u1⟩ := h1
  obtain ⟨d2, t2, u2⟩ := h2
  refine ⟨d2.trans d1, ?_, ?_⟩ <;> simp [addP, t2, t1, u2, u1] <;> omega

theorem Steps_count_expr (s : AState) :
    Steps (nodeP (decide (0 < s.unsafeDepth))) s (count_expr s) := by
  by_cases h : 0 < s.unsafeDepth <;> simp [Steps, count_expr, nodeP, h]

theorem Steps_depth {c : Nat × Nat} {s s1 : AState} (h : Steps c s s1) :
    decide (0 < s1.unsafeDepth) = decide (0 < s.unsafeDepth) := by
  rw [h.1]

theorem Steps_quiet_eq {s s' : AState} (hd : s'.unsafeDepth = s.unsafeDepth)
    (ht : s'.total_exprs = s.total_exprs) (hu : s'.unsafe_exprs = s.unsafe_exprs) :
    Steps (0, 0) s s' := ⟨hd, by simp [ht], by simp [hu]⟩

theorem process_relative_path_steps (getv : List String → Option String) (p : List String)
    (s : AState) : Steps (0, 0) s (process_relative_path getv p s) := by
  cases h : getv p <;> simp [Steps, process_relative_path, h]

theorem processTy_steps (getv : List String → Option String) :
    ∀ n : Nat,
      (∀ ty : ATy, sizeOf ty ≤ n → ∀ s, Steps (0, 0) s (processTy getv ty s)) ∧
      (∀ tys : List ATy, sizeOf tys ≤ n → ∀ s, Steps (0, 0) s (processTyList getv tys s)) := by
  intro n
  induction n using Nat.strong_induction_on with
  | _ n ih =>
    constructor
    · intro ty hsz s
      cases ty with
      | array elem =>
        have := (ih (sizeOf elem) (by simp at hsz; omega)).1 elem (le_refl _) s
        simpa [processTy] using this
      | bareFn output inputs =>
        have h1 : Steps (0, 0) s (processTyOpt getv output s) := by
          cases output with
          | none => exact Steps_refl s
          | some ty =>
            have := (ih (sizeOf ty) (by simp at hsz; omega)).1 ty (le_refl _) s
            simpa [processTyOpt] using this
        have h2 := (ih (sizeOf inputs) (by simp at hsz; omega)).2 inputs (le_refl _)
          (processTyOpt getv output s)
        have := Steps_comp h1 h2
        simp only [addP] at this
        cases output with
        | none => simpa [processTy, processTyOpt] using this
        | some ty => simpa [processTy, processTyOpt] using this
      | group elem =>
        have := (ih (sizeOf elem) (by simp at hsz; omega)).1 elem (le_refl _) s
        simpa [processTy] using this
      | paren elem =>
        have := (ih (sizeOf elem) (by simp at hsz; omega)).1 elem (le_refl _) s
        simpa [processTy] using this
      | path p => simpa [processTy, process_path] using process_relative_path_steps getv p s
      | ptr elem =>
        have := (ih (sizeOf elem) (by simp at hsz; omega)).1 elem (le_refl _) s
        simpa [processTy] using this
      | ref elem =>
        have := (ih (sizeOf elem) (by simp at hsz; omega)).1 elem (le_refl _) s
        simpa [processTy] using this
      | slice elem =>
        have := (ih (sizeOf elem) (by simp at hsz; omega)).1 elem (le_refl _) s
        simpa [processTy] using this
      | tuple elems =>
        have := (ih (sizeOf elems) (by simp at hsz; omega)).2 elems (le_refl _) s
        simpa [processTy] using this
      | other => simpa [processTy] using Steps_refl s
    · intro tys hsz s
      cases tys with
      | nil => simpa [processTyList] using Steps_refl s
      | cons t rest =>
        have h1 := (ih (sizeOf t) (by simp at hsz; omega)).1 t (le_refl _) s
        have h2 := (ih (sizeOf rest) (by simp at hsz; omega)).2 rest (le_refl _)
          (processTy getv t s)
        have := Steps_comp h1 h2
        simpa [processTyList, addP] using this

theorem processTy_steps1 (getv : List String → Option String) (ty : ATy) (s : AState) :
    Steps (0, 0) s (processTy getv ty s) :=
  (processTy_steps getv (sizeOf ty)).1 ty (le_refl _) s

theorem processTyOpt_steps (getv : List String → Option String) (oty : Option ATy)
    (s : AState) : Steps (0, 0) s (processTyOpt getv oty s) := by
  cases oty with
  | none => exact Steps_refl s
  | some ty => simpa [processTyOpt] using processTy_steps1 getv ty s

theorem process_sig_steps (getv : List String → Option String) (sig : ASig) (s : AState) :
    Steps (0, 0) s (process_sig getv sig s) := by
  have hfold : ∀ (args : List (Option ATy)) (s : AState),
      Steps (0, 0) s (args.foldl (fun s arg => match arg with
        | some ty => processTy getv ty s
        | none => s) s) := by
    intro args
    induction args with
    | nil => intro s; exact Steps_refl s
    | cons a rest ih =>
      intro s
      cases a with
      | none =>
        have h2 := ih s
        simpa [List.foldl, addP] using Steps_comp (Steps_refl s) h2
      | some ty =>
        have h1 := processTy_steps1 getv ty s
        have h2 := ih (processTy getv ty s)
        simpa [List.foldl, addP] using Steps_comp h1 h2
  have h1 := hfold sig.inputs s
  have h2 := processTyOpt_steps getv sig.output (sig.inputs.foldl (fun s arg => match arg with
    | some ty => processTy getv ty s
    | none => s) s)
  simpa [process_sig, addP] using Steps_comp h1 h2

theorem processUseTree_steps (getv : List String → Option String) :
    ∀ n : Nat,
      (∀ (t : AUseTree) (rel : List String) (s : AState), sizeOf t ≤ n →
        Steps (0, 0) s (processUseTree getv rel t s)) ∧
      (∀ (ts : List AUseTree) (rel : List String) (s : AState), sizeOf ts ≤ n →
        Steps (0, 0) s (processUseTreeList getv rel ts s)) := by
  intro n
  induction n using Nat.strong_induction_on with
  | _ n ih =>
    constructor
    · intro t rel s hsz
      cases t with
      | path seg t' =>
        have := (ih (sizeOf t') (by simp at hsz; omega)).1 t' (rel ++ [seg]) s (le_refl _)
        simpa [processUseTree] using this
      | name seg => simpa [processUseTree] using process_relative_path_steps getv (rel ++ [seg]) s
      | rename seg => simpa [processUseTree] using process_relative_path_steps getv (rel ++ [seg]) s
      | glob => simpa [processUseTree] using Steps_refl s
      | group items =>
        have := (ih (sizeOf items) (by simp at hsz; omega)).2 items rel s (le_refl _)
        simpa [processUseTree] using this
    · intro ts rel s hsz
      cases ts with
      | nil => simpa [processUseTreeList] using Steps_refl s
      | cons t rest =>
        have h1 := (ih (sizeOf t) (by simp at hsz; omega)).1 t rel s (le_refl _)
        have h2 := (ih (sizeOf rest) (by simp at hsz; omega)).2 rest rel
          (processUseTree getv rel t s) (le_refl _)
        simpa [processUseTreeList, addP] using Steps_comp h1 h2

theorem processUseTree_steps1 (getv : List String → Option String) (t : AUseTree)
    (rel : List String) (s : AState) : Steps (0, 0) s (processUseTree getv rel t s) :=
  (processUseTree_steps getv (sizeOf t)).1 t rel s (le_refl _)

theorem Steps_quiet_left {c : Nat × Nat} {s s1 s2 : AState} (h1 : Steps (0, 0) s s1)
    (h2 : Steps c s1 s2) : Steps c s s2 := by
  obtain ⟨a1, b1, c1⟩ := h1
  obtain ⟨a2, b2, c2⟩ := h2
  exact ⟨a2.trans a1, by omega, by omega⟩

theorem Steps_quiet_right {c : Nat × Nat} {s s1 s2 : AState} (h1 : Steps c s s1)
    (h2 : Steps (0, 0) s1 s2) : Steps c s s2 := by
  obtain ⟨a1, b1, c1⟩ := h1
  obtain ⟨a2, b2, c2⟩ := h2
  exact ⟨a2.trans a1, by omega, by omega⟩

theorem processTyList_steps1 (getv : List String → Option String) (tys : List ATy)
    (s : AState) : Steps (0, 0) s (processTyList getv tys s) :=
  (processTy_steps getv (sizeOf tys)).2 tys (le_refl _) s

theorem Steps_in_bump {c2 : Nat × Nat} {s0 sf : AState}
    (h : Steps c2 { s0 with unsafeDepth := s0.unsafeDepth + 1 } sf) :
    Steps c2 s0 { sf with unsafeDepth := sf.unsafeDepth - 1 } := by
  obtain ⟨a, b, c⟩ := h
  refine ⟨?_, ?_, ?_⟩ <;> simp_all

theorem Steps_path_invariant {c : Nat × Nat} {s sf : AState} (v w : List String)
    (h : Steps c { s with path := v } sf) : Steps c s { sf with path := w } := by
  obtain ⟨a, b, c'⟩ := h
  refine ⟨?_, ?_, ?_⟩ <;> simp_all

theorem walker_counts (getv : List String → Option String) : ∀ n : Nat,
    (∀ e : AExpr, sizeOf e ≤ n → ∀ s : AState,
      Steps (countsE (decide (0 < s.unsafeDepth)) e) s (processExpr getv e s)) ∧
    (∀ oe : Option AExpr, sizeOf oe ≤ n → ∀ s : AState,
      Steps (countsEOpt (decide (0 < s.unsafeDepth)) oe) s (processExprOpt getv oe s)) ∧
    (∀ es : List AExpr, sizeOf es ≤ n → ∀ s : AState,
      Steps (countsEList (decide (0 < s.unsafeDepth)) es) s (processExprList getv es s)) ∧
    (∀ arms : List (Option AExpr × AExpr), sizeOf arms ≤ n → ∀ s : AState,
      Steps (countsArms (decide (0 < s.unsafeDepth)) arms) s (processArmList getv arms s)) ∧
    (∀ st : AStmt, sizeOf st ≤ n → ∀ s : AState,
      Steps (countsS (decide (0 < s.unsafeDepth)) st) s (processStmt getv st s)) ∧
    (∀ sts : List AStmt, sizeOf sts ≤ n → ∀ s : AState,
      Steps (countsSList (decide (0 < s.unsafeDepth)) sts) s (processStmtList getv sts s)) ∧
    (∀ it : AItem, sizeOf it ≤ n → ∀ s : AState,
      Steps (countsI (decide (0 < s.unsafeDepth)) it) s (processItem getv it s)) ∧
    (∀ vars : List (Option AExpr × List ATy), sizeOf vars ≤ n → ∀ s : AState,
      Steps (countsVariants (decide (0 < s.unsafeDepth)) vars) s (processVariantList getv vars s)) ∧
    (∀ its : List AItem, sizeOf its ≤ n → ∀ s : AState,
      Steps (countsIList (decide (0 < s.unsafeDepth)) its) s (processItemList getv its s)) ∧
    (∀ ii : AImplItem, sizeOf ii ≤ n → ∀ s : AState,
      Steps (countsImpl (decide (0 < s.unsafeDepth)) ii) s (processImplItem getv ii s)) ∧
    (∀ iis : List AImplItem, sizeOf iis ≤ n → ∀ s : AState,
      Steps (countsImplList (decide (0 < s.unsafeDepth)) iis) s (processImplItemList getv iis s)) ∧
    (∀ ti : ATraitItem, sizeOf ti ≤ n → ∀ s : AState,
      Steps (countsTrait (decide (0 < s.unsafeDepth)) ti) s (processTraitItem getv ti s)) ∧
    (∀ tis : List ATraitItem, sizeOf tis ≤ n → ∀ s : AState,
      Steps (countsTraitList (decide (0 < s.unsafeDepth)) tis) s (processTraitItemList getv tis s)) := by
  intro n
  induction n using Nat.strong_induction_on with
  | _ n ih =>
    have IHE : ∀ e : AExpr, sizeOf e < n → ∀ s : AState,
        Steps (countsE (decide (0 < s.unsafeDepth)) e) s (processExpr getv e s) :=
      fun e h s => (ih (sizeOf e) h).1 e (le_refl _) s
    have IHEO : ∀ oe : Option AExpr, sizeOf oe < n → ∀ s : AState,
        Steps (countsEOpt (decide (0 < s.unsafeDepth)) oe) s (processExprOpt getv oe s) :=
      fun oe h s => (ih (sizeOf oe) h).2.1 oe (le_refl _) s
    have IHEL : ∀ es : List AExpr, sizeOf es < n → ∀ s : AState,
        Steps (countsEList (decide (0 < s.unsafeDepth)) es) s (processExprList getv es s) :=
      fun es h s => (ih (sizeOf es) h).2.2.1 es (le_refl _) s
    have IHARMS : ∀ arms : List (Option AExpr × AExpr), sizeOf arms < n → ∀ s : AState,
        Steps (countsArms (decide (0 < s.unsafeDepth)) arms) s (processArmList getv arms s) :=
      fun arms h s => (ih (sizeOf arms) h).2.2.2.1 arms (le_refl _) s
    have IHS : ∀ st : AStmt, sizeOf st < n → ∀ s : AState,
        Steps (countsS (decide (0 < s.unsafeDepth)) st) s (processStmt getv st s) :=
      fun st h s => (ih (sizeOf st) h).2.2.2.2.1 st (le_refl _) s
    have IHSL : ∀ sts : List AStmt, sizeOf sts < n → ∀ s : AState,
        Steps (countsSList (decide (0 < s.unsafeDepth)) sts) s (processStmtList getv sts s) :=
      fun sts h s => (ih (sizeOf sts) h).2.2.2.2.2.1 sts (le_refl _) s
    have IHI : ∀ it : AItem, sizeOf it < n → ∀ s : AState,
        Steps (countsI (decide (0 < s.unsafeDepth)) it) s (processItem getv it s) :=
      fun it h s => (ih (sizeOf it) h).2.2.2.2.2.2.1 it (le_refl _) s
    have IHVARS : ∀ vars : List (Option AExpr × List ATy), sizeOf vars < n → ∀ s : AState,
        Steps (countsVariants (decide (0 < s.unsafeDepth)) vars) s (processVariantList getv vars s) :=
      fun vars h s => (ih (sizeOf vars) h).2.2.2.2.2.2.2.1 vars (le_refl _) s
    have IHIL : ∀ its : List AItem, sizeOf its < n → ∀ s : AState,
        Steps (countsIList (decide (0 < s.unsafeDepth)) its) s (processItemList getv its s) :=
      fun its h s => (ih (sizeOf its) h).2.2.2.2.2.2.2.2.1 its (le_refl _) s
    have IHII : ∀ ii : AImplItem, sizeOf ii < n → ∀ s : AState,
        Steps (countsImpl (decide (0 < s.unsafeDepth)) ii) s (processImplItem getv ii s) :=
      fun ii h s => (ih (sizeOf ii) h).2.2.2.2.2.2.2.2.2.1 ii (le_refl _) s
    have IHIIL : ∀ iis : List AImplItem, sizeOf iis < n → ∀ s : AState,
        Steps (countsImplList (decide (0 < s.unsafeDepth)) iis) s (processImplItemList getv iis s) :=
      fun iis h s => (ih (sizeOf iis) h).2.2.2.2.2.2.2.2.2.2.1 iis (le_refl _) s
    have IHTI : ∀ ti : ATraitItem, sizeOf ti < n → ∀ s : AState,
        Steps (countsTrait (decide (0 < s.unsafeDepth)) ti) s (processTraitItem getv ti s) :=
      fun ti h s => (ih (sizeOf ti) h).2.2.2.2.2.2.2.2.2.2.2.1 ti (le_refl _) s
    have IHTIL : ∀ tis : List ATraitItem, sizeOf tis < n → ∀ s : AState,
        Steps (countsTraitList (decide (0 < s.unsafeDepth)) tis) s (processTraitItemList getv tis s) :=
      fun tis h s => (ih (sizeOf tis) h).2.2.2.2.2.2.2.2.2.2.2.2 tis (le_refl _) s
    refine ⟨?_, ?_, ?_, ?_, ?_, ?_, ?_, ?_, ?_, ?_, ?_, ?_, ?_⟩
    · intro e hsz s
      cases e with
      | awaitE e =>
        have h0 := Steps_count_expr s
        have h1 := IHE e (by simp at hsz; omega) (count_expr s)
        rw [Steps_depth h0] at h1
        simpa [processExpr, countsE] using Steps_comp h0 h1
      | group e =>
        have h0 := Steps_count_expr s
        have h1 := IHE e (by simp at hsz; omega) (count_expr s)
        rw [Steps_depth h0] at h1
        simpa [processExpr, countsE] using Steps_comp h0 h1
      | letE e =>
        have h0 := Steps_count_expr s
        have h1 := IHE e (by simp at hsz; omega) (count_expr s)
        rw [Steps_depth h0] at h1
        simpa [processExpr, countsE] using Steps_comp h0 h1
      | paren e =>
        have h0 := Steps_count_expr s
        have h1 := IHE e (by simp at hsz; omega) (count_expr s)
        rw [Steps_depth h0] at h1
        simpa [processExpr, countsE] using Steps_comp h0 h1
      | ref e =>
        have h0 := Steps_count_expr s
        have h1 := IHE e (by simp at hsz; omega) (count_expr s)
        rw [Steps_depth h0] at h1
        simpa [processExpr, countsE] using Steps_comp h0 h1
      | tryE e =>
        have h0 := Steps_count_expr s
        have h1 := IHE e (by simp at hsz; omega) (count_expr s)
        rw [Steps_depth h0] at h1
        simpa [processExpr, countsE] using Steps_comp h0 h1
      | unary e =>
        have h0 := Steps_count_expr s
        have h1 := IHE e (by simp at hsz; omega) (count_expr s)
        rw [Steps_depth h0] at h1
        simpa [processExpr, countsE] using Steps_comp h0 h1
      | asyncE stmts =>
        have h0 := Steps_count_expr s
        have h1 := IHSL stmts (by simp at hsz; omega) (count_expr s)
        rw [Steps_depth h0] at h1
        simpa [processExpr, countsE] using Steps_comp h0 h1
      | blockE stmts =>
        have h0 := Steps_count_expr s
        have h1 := IHSL stmts (by simp at hsz; omega) (count_expr s)
        rw [Steps_depth h0] at h1
        simpa [processExpr, countsE] using Steps_comp h0 h1
      | constE stmts =>
        have h0 := Steps_count_expr s
        have h1 := IHSL stmts (by simp at hsz; omega) (count_expr s)
        rw [Steps_depth h0] at h1
        simpa [processExpr, countsE] using Steps_comp h0 h1
      | loopE stmts =>
        have h0 := Steps_count_expr s
        have h1 := IHSL stmts (by simp at hsz; omega) (count_expr s)
        rw [Steps_depth h0] at h1
        simpa [processExpr, countsE] using Steps_comp h0 h1
      | tryBlock stmts =>
        have h0 := Steps_count_expr s
        have h1 := IHSL stmts (by simp at hsz; omega) (count_expr s)
        rw [Steps_depth h0] at h1
        simpa [processExpr, countsE] using Steps_comp h0 h1
      | breakE oe =>
        have h0 := Steps_count_expr s
        have h1 := IHEO oe (by simp at hsz; omega) (count_expr s)
        rw [Steps_depth h0] at h1
        simpa [processExpr, countsE] using Steps_comp h0 h1
      | ret oe =>
        have h0 := Steps_count_expr s
        have h1 := IHEO oe (by simp at hsz; omega) (count_expr s)
        rw [Steps_depth h0] at h1
        simpa [processExpr, countsE] using Steps_comp h0 h1
      | yieldE oe =>
        have h0 := Steps_count_expr s
        have h1 := IHEO oe (by simp at hsz; omega) (count_expr s)
        rw [Steps_depth h0] at h1
        simpa [processExpr, countsE] using Steps_comp h0 h1
      | array elems =>
        have h0 := Steps_count_expr s
        have h1 := IHEL elems (by simp at hsz; omega) (count_expr s)
        rw [Steps_depth h0] at h1
        simpa [processExpr, countsE] using Steps_comp h0 h1
      | tuple elems =>
        have h0 := Steps_count_expr s
        have h1 := IHEL elems (by simp at hsz; omega) (count_expr s)
        rw [Steps_depth h0] at h1
        simpa [processExpr, countsE] using Steps_comp h0 h1
      | assign l r =>
        have h0 := Steps_count_expr s
        have h1 := IHE l (by simp at hsz; omega) (count_expr s)
        rw [Steps_depth h0] at h1
        have h2 := IHE r (by simp at hsz; omega) (processExpr getv l (count_expr s))
        rw [Steps_depth h1, Steps_depth h0] at h2
        simpa [processExpr, countsE] using Steps_comp h0 (Steps_comp h1 h2)
      | binary l r =>
        have h0 := Steps_count_expr s
        have h1 := IHE l (by simp at hsz; omega) (count_expr s)
        rw [Steps_depth h0] at h1
        have h2 := IHE r (by simp at hsz; omega) (processExpr getv l (count_expr s))
        rw [Steps_depth h1, Steps_depth h0] at h2
        simpa [processExpr, countsE] using Steps_comp h0 (Steps_comp h1 h2)
      | index l r =>
        have h0 := Steps_count_expr s
        have h1 := IHE l (by simp at hsz; omega) (count_expr s)
        rw [Steps_depth h0] at h1
        have h2 := IHE r (by simp at hsz; omega) (processExpr getv l (count_expr s))
        rw [Steps_depth h1, Steps_depth h0] at h2
        simpa [processExpr, countsE] using Steps_comp h0 (Steps_comp h1 h2)
      | repeatE l r =>
        have h0 := Steps_count_expr s
        have h1 := IHE l (by simp at hsz; omega) (count_expr s)
        rw [Steps_depth h0] at h1
        have h2 := IHE r (by simp at hsz; omega) (processExpr getv l (count_expr s))
        rw [Steps_depth h1, Steps_depth h0] at h2
        simpa [processExpr, countsE] using Steps_comp h0 (Steps_comp h1 h2)
      | call f args =>
        have h0 := Steps_count_expr s
        have h1 := IHE f (by simp at hsz; omega) (count_expr s)
        rw [Steps_depth h0] at h1
        have h2 := IHEL args (by simp at hsz; omega) (processExpr getv f (count_expr s))
        rw [Steps_depth h1, Steps_depth h0] at h2
        simpa [processExpr, countsE] using Steps_comp h0 (Steps_comp h1 h2)
      | methodCall recv args =>
        have h0 := Steps_count_expr s
        have h1 := IHE recv (by simp at hsz; omega) (count_expr s)
        rw [Steps_depth h0] at h1
        have h2 := IHEL args (by simp at hsz; omega) (processExpr getv recv (count_expr s))
        rw [Steps_depth h1, Steps_depth h0] at h2
        simpa [processExpr, countsE] using Steps_comp h0 (Steps_comp h1 h2)
      | forLoop e body =>
        have h0 := Steps_count_expr s
        have h1 := IHE e (by simp at hsz; omega) (count_expr s)
        rw [Steps_depth h0] at h1
        have h2 := IHSL body (by simp at hsz; omega) (processExpr getv e (count_expr s))
        rw [Steps_depth h1, Steps_depth h0] at h2
        simpa [processExpr, countsE] using Steps_comp h0 (Steps_comp h1 h2)
      | whileE cond body =>
        have h0 := Steps_count_expr s
        have h1 := IHE cond (by simp at hsz; omega) (count_expr s)
        rw [Steps_depth h0] at h1
        have h2 := IHSL body (by simp at hsz; omega) (processExpr getv cond (count_expr s))
        rw [Steps_depth h1, Steps_depth h0] at h2
        simpa [processExpr, countsE] using Steps_comp h0 (Steps_comp h1 h2)
      | matchE e arms =>
        have h0 := Steps_count_expr s
        have h1 := IHE e (by simp at hsz; omega) (count_expr s)
        rw [Steps_depth h0] at h1
        have h2 := IHARMS arms (by simp at hsz; omega) (processExpr getv e (count_expr s))
        rw [Steps_depth h1, Steps_depth h0] at h2
        simpa [processExpr, countsE] using Steps_comp h0 (Steps_comp h1 h2)
      | range lo hi =>
        have h0 := Steps_count_expr s
        have h1 := IHEO lo (by simp at hsz; omega) (count_expr s)
        rw [Steps_depth h0] at h1
        have h2 := IHEO hi (by simp at hsz; omega) (processExprOpt getv lo (count_expr s))
        rw [Steps_depth h1, Steps_depth h0] at h2
        simpa [processExpr, countsE] using Steps_comp h0 (Steps_comp h1 h2)
      | cast e ty =>
        have h0 := Steps_count_expr s
        have h1 := IHE e (by simp at hsz; omega) (count_expr s)
        rw [Steps_depth h0] at h1
        have hq := processTy_steps1 getv ty (processExpr getv e (count_expr s))
        simpa [processExpr, countsE] using Steps_quiet_right (Steps_comp h0 h1) hq
      | closure oty body =>
        have h0 := Steps_count_expr s
        have hq := processTyOpt_steps getv oty (count_expr s)
        have h1 := IHE body (by simp at hsz; omega) (processTyOpt getv oty (count_expr s))
        rw [Steps_depth hq, Steps_depth h0] at h1
        simpa [processExpr, countsE] using Steps_comp h0 (Steps_quiet_left hq h1)
      | ifE cond thenB elseE =>
        have h0 := Steps_count_expr s
        have h1 := IHE cond (by simp at hsz; omega) (count_expr s)
        rw [Steps_depth h0] at h1
        have h2 := IHSL thenB (by simp at hsz; omega) (processExpr getv cond (count_expr s))
        rw [Steps_depth h1, Steps_depth h0] at h2
        have h3 := IHEO elseE (by simp at hsz; omega)
          (processStmtList getv thenB (processExpr getv cond (count_expr s)))
        rw [Steps_depth h2, Steps_depth h1, Steps_depth h0] at h3
        simpa [processExpr, countsE] using Steps_comp h0 (Steps_comp h1 (Steps_comp h2 h3))
      | pathE p =>
        have h0 := Steps_count_expr s
        have hq := process_relative_path_steps getv p (count_expr s)
        simpa [processExpr, countsE, process_path] using Steps_quiet_right h0 hq
      | structE p fields =>
        have h0 := Steps_count_expr s
        have hq := process_relative_path_steps getv p (count_expr s)
        have h1 := IHEL fields (by simp at hsz; omega)
          (process_relative_path getv p (count_expr s))
        rw [Steps_depth hq, Steps_depth h0] at h1
        simpa [processExpr, countsE, process_path] using Steps_comp h0 (Steps_quiet_left hq h1)
      | unsafeE stmts =>
        have h0 := Steps_count_expr s
        have h1 := IHSL stmts (by simp at hsz; omega)
          { count_expr s with unsafeDepth := (count_expr s).unsafeDepth + 1 }
        have hdp : decide (0 < ({ count_expr s with
            unsafeDepth := (count_expr s).unsafeDepth + 1 } : AState).unsafeDepth) = true := by
          simp
        rw [hdp] at h1
        have h2 := Steps_in_bump h1
        simpa [processExpr, countsE] using Steps_comp h0 h2
      | other =>
        simpa [processExpr, countsE] using Steps_count_expr s
    · intro oe hsz s
      cases oe with
      | none => simpa [processExprOpt, countsEOpt] using Steps_refl s
      | some e =>
        have h1 := IHE e (by simp at hsz; omega) s
        simpa [processExprOpt, countsEOpt] using h1
    · intro es hsz s
      cases es with
      | nil => simpa [processExprList, countsEList] using Steps_refl s
      | cons e rest =>
        have h1 := IHE e (by simp at hsz; omega) s
        have h2 := IHEL rest (by simp at hsz; omega) (processExpr getv e s)
        rw [Steps_depth h1] at h2
        simpa [processExprList, countsEList] using Steps_comp h1 h2
    · intro arms hsz s
      cases arms with
      | nil => simpa [processArmList, countsArms] using Steps_refl s
      | cons a rest =>
        obtain ⟨guard, body⟩ := a
        have h1 := IHEO guard (by simp at hsz; omega) s
        have h2 := IHE body (by simp at hsz; omega) (processExprOpt getv guard s)
        rw [Steps_depth h1] at h2
        have h3 := IHARMS rest (by simp at hsz; omega)
          (processExpr getv body (processExprOpt getv guard s))
        rw [Steps_depth h2, Steps_depth h1] at h3
        simpa [processArmList, countsArms] using Steps_comp (Steps_comp h1 h2) h3
    · intro st hsz s
      cases st with
      | localS oinit =>
        cases oinit with
        | none => simpa [processStmt, countsS] using Steps_refl s
        | some init =>
          obtain ⟨e, diverge⟩ := init
          have h1 := IHE e (by simp at hsz; omega) s
          have h2 := IHEO diverge (by simp at hsz; omega) (processExpr getv e s)
          rw [Steps_depth h1] at h2
          simpa [processStmt, countsS] using Steps_comp h1 h2
      | itemS item =>
        have h1 := IHI item (by simp at hsz; omega) s
        simpa [processStmt, countsS] using h1
      | exprS e =>
        have h1 := IHE e (by simp at hsz; omega) s
        simpa [processStmt, countsS] using h1
      | macroS => simpa [processStmt, countsS] using Steps_refl s
    · intro sts hsz s
      cases sts with
      | nil => simpa [processStmtList, countsSList] using Steps_refl s
      | cons st rest =>
        have h1 := IHS st (by simp at hsz; omega) s
        have h2 := IHSL rest (by simp at hsz; omega) (processStmt getv st s)
        rw [Steps_depth h1] at h2
        simpa [processStmtList, countsSList] using Steps_comp h1 h2
    · intro it hsz s
      cases it with
      | constI ty e =>
        have hq := processTy_steps1 getv ty s
        have h1 := IHE e (by simp at hsz; omega) (processTy getv ty s)
        rw [Steps_depth hq] at h1
        simpa [processItem, countsI] using Steps_quiet_left hq h1
      | enumI variants =>
        have h1 := IHVARS variants (by simp at hsz; omega) s
        simpa [processItem, countsI] using h1
      | fnI sig body =>
        by_cases hu : sig.unsafety
        · have h1 := process_sig_steps getv sig
            { s with unsafeDepth := s.unsafeDepth + 1 }
          have h2 := IHSL body (by simp at hsz; omega)
            (process_sig getv sig { s with unsafeDepth := s.unsafeDepth + 1 })
          have hdp : decide (0 < (process_sig getv sig
              { s with unsafeDepth := s.unsafeDepth + 1 }).unsafeDepth) = true := by
            rw [h1.1]; simp
          rw [hdp] at h2
          have h3 := Steps_in_bump (Steps_quiet_left h1 h2)
          simpa [processItem, countsI, hu] using h3
        · have h1 := process_sig_steps getv sig s
          have h2 := IHSL body (by simp at hsz; omega) (process_sig getv sig s)
          rw [Steps_depth h1] at h2
          have := Steps_quiet_left h1 h2
          simpa [processItem, countsI, hu] using this
      | implI traitPath items =>
        cases traitPath with
        | none =>
          have h1 := IHIIL items (by simp at hsz; omega) s
          simpa [processItem, countsI] using h1
        | some p =>
          have hq : Steps (0, 0) s (process_path getv p s) := by
            simpa [process_path] using process_relative_path_steps getv p s
          have h1 := IHIIL items (by simp at hsz; omega) (process_path getv p s)
          rw [Steps_depth hq] at h1
          simpa [processItem, countsI] using Steps_quiet_left hq h1
      | modI name content =>
        cases content with
        | none => simpa [processItem, countsI] using Steps_refl s
        | some items =>
          have h1 := IHIL items (by simp at hsz; omega)
            { s with path := s.path ++ [name] }
          have hdp : decide (0 < ({ s with path := s.path ++ [name] } : AState).unsafeDepth)
              = decide (0 < s.unsafeDepth) := rfl
          rw [hdp] at h1
          simpa [processItem, countsI] using Steps_path_invariant _ _ h1
      | staticI ty e =>
        have hq := processTy_steps1 getv ty s
        have h1 := IHE e (by simp at hsz; omega) (processTy getv ty s)
        rw [Steps_depth hq] at h1
        simpa [processItem, countsI] using Steps_quiet_left hq h1
      | structI fields =>
        simpa [processItem, countsI] using processTyList_steps1 getv fields s
      | traitI items =>
        have h1 := IHTIL items (by simp at hsz; omega) s
        simpa [processItem, countsI] using h1
      | typeI ty =>
        simpa [processItem, countsI] using processTy_steps1 getv ty s
      | useI tree =>
        simpa [processItem, countsI] using processUseTree_steps1 getv tree [] s
      | other => simpa [processItem, countsI] using Steps_refl s
    · intro vars hsz s
      cases vars with
      | nil => simpa [processVariantList, countsVariants] using Steps_refl s
      | cons v rest =>
        obtain ⟨disc, fields⟩ := v
        have h1 := IHEO disc (by simp at hsz; omega) s
        have hq := processTyList_steps1 getv fields (processExprOpt getv disc s)
        have h2 := IHVARS rest (by simp at hsz; omega)
          (processTyList getv fields (processExprOpt getv disc s))
        rw [Steps_depth hq, Steps_depth h1] at h2
        simpa [processVariantList, countsVariants] using
          Steps_comp (Steps_quiet_right h1 hq) h2
    · intro its hsz s
      cases its with
      | nil => simpa [processItemList, countsIList] using Steps_refl s
      | cons it rest =>
        have h1 := IHI it (by simp at hsz; omega) s
        have h2 := IHIL rest (by simp at hsz; omega) (processItem getv it s)
        rw [Steps_depth h1] at h2
        simpa [processItemList, countsIList] using Steps_comp h1 h2
    · intro ii hsz s
      cases ii with
      | constI ty e =>
        have hq := processTy_steps1 getv ty s
        have h1 := IHE e (by simp at hsz; omega) (processTy getv ty s)
        rw [Steps_depth hq] at h1
        simpa [processImplItem, countsImpl] using Steps_quiet_left hq h1
      | fnI sig body =>
        by_cases hu : sig.unsafety
        · have h1 := process_sig_steps getv sig
            { s with unsafeDepth := s.unsafeDepth + 1 }
          have h2 := IHSL body (by simp at hsz; omega)
            (process_sig getv sig { s with unsafeDepth := s.unsafeDepth + 1 })
          have hdp : decide (0 < (process_sig getv sig
              { s with unsafeDepth := s.unsafeDepth + 1 }).unsafeDepth) = true := by
            rw [h1.1]; simp
          rw [hdp] at h2
          have h3 := Steps_in_bump (Steps_quiet_left h1 h2)
          simpa [processImplItem, countsImpl, hu] using h3
        · have h1 := process_sig_steps getv sig s
          have h2 := IHSL body (by simp at hsz; omega) (process_sig getv sig s)
          rw [Steps_depth h1] at h2
          have := Steps_quiet_left h1 h2
          simpa [processImplItem, countsImpl, hu] using this
      | typeI ty =>
        simpa [processImplItem, countsImpl] using processTy_steps1 getv ty s
      | other => simpa [processImplItem, countsImpl] using Steps_refl s
    · intro iis hsz s
      cases iis with
      | nil => simpa [processImplItemList, countsImplList] using Steps_refl s
      | cons ii rest =>
        have h1 := IHII ii (by simp at hsz; omega) s
        have h2 := IHIIL rest (by simp at hsz; omega) (processImplItem getv ii s)
        rw [Steps_depth h1] at h2
        simpa [processImplItemList, countsImplList] using Steps_comp h1 h2
    · intro ti hsz s
      cases ti with
      | constI ty default =>
        have hq := processTy_steps1 getv ty s
        have h1 := IHEO default (by simp at hsz; omega) (processTy getv ty s)
        rw [Steps_depth hq] at h1
        simpa [processTraitItem, countsTrait] using Steps_quiet_left hq h1
      | fnI sig default =>
        have hq := process_sig_steps getv sig s
        cases default with
        | none => simpa [processTraitItem, countsTrait] using hq
        | some body =>
          have h1 := IHSL body (by simp at hsz; omega) (process_sig getv sig s)
          rw [Steps_depth hq] at h1
          simpa [processTraitItem, countsTrait] using Steps_quiet_left hq h1
      | typeI oty =>
        cases oty with
        | none => simpa [processTraitItem, countsTrait] using Steps_refl s
        | some ty => simpa [processTraitItem, countsTrait] using processTy_steps1 getv ty s
      | other => simpa [processTraitItem, countsTrait] using Steps_refl s
    · intro tis hsz s
      cases tis with
      | nil => simpa [processTraitItemList, countsTraitList] using Steps_refl s
      | cons ti rest =>
        have h1 := IHTI ti (by simp at hsz; omega) s
        have h2 := IHTIL rest (by simp at hsz; omega) (processTraitItem getv ti s)
        rw [Steps_depth h1] at h2
        simpa [processTraitItemList, countsTraitList] using Steps_comp h1 h2

/-- C3 (amended): every visited expression node increments `total_exprs` by
exactly one, and additionally increments `unsafe_exprs` exactly when the
nesting depth is greater than zero at that moment (the specification counts
`countsE`/`countsSList` say exactly this), and the nesting depth always
returns to its prior value; on the claim's concrete scenario — two sibling
unsafe blocks, each wrapping one expression, interleaved with three
non-unsafe expressions — the walk ends with `total_exprs = 7` (not 5: the
two unsafe-block expressions are themselves visited, at depth zero) and
`unsafe_exprs = 2`, with the depth back at zero. -/
theorem c3_walker_counts :
    (∀ (getv : List String → Option String) (e : AExpr) (s : AState),
      (processExpr getv e s).unsafeDepth = s.unsafeDepth ∧
      (processExpr getv e s).total_exprs
        = s.total_exprs + (countsE (decide (0 < s.unsafeDepth)) e).1 ∧
      (processExpr getv e s).unsafe_exprs
        = s.unsafe_exprs + (countsE (decide (0 < s.unsafeDepth)) e).2) ∧
    (∀ (getv : List String → Option String) (sts : List AStmt) (s : AState),
      (processStmtList getv sts s).unsafeDepth = s.unsafeDepth ∧
      (processStmtList getv sts s).total_exprs
        = s.total_exprs + (countsSList (decide (0 < s.unsafeDepth)) sts).1 ∧
      (processStmtList getv sts s).unsafe_exprs
        = s.unsafe_exprs + (countsSList (decide (0 < s.unsafeDepth)) sts).2) ∧
    ((processItem noHits c3Fn AState.new).total_exprs = 7 ∧
     (processItem noHits c3Fn AState.new).unsafe_exprs = 2 ∧
     (processItem noHits c3Fn AState.new).unsafeDepth = 0) :=
  ⟨fun getv e s => (walker_counts getv (sizeOf e)).1 e (le_refl _) s,
   fun getv sts s => (walker_counts getv (sizeOf sts)).2.2.2.2.2.1 sts (le_refl _) s,
   rfl, rfl, rfl⟩

/-- C4 counterexample: for the counts map with the single parseable version
"1.42.0" at occurrence count 1, the weight is ln(1)/ln(1): numerator and
denominator are both 0, so the result is not the ordinal 42 the claim
demands for every occurrence count — the real-valued model yields the junk
value 0 of division by zero where the f32 code yields NaN; under both, the
result differs from 42. -/
theorem c4_counterexample :
    rust_version_to_number "1.42.0" = some 42 ∧
    normalize_versions [("1.42.0", 1)] = 0 ∧
    ¬ normalize_versions [("1.42.0", 1)] = (42 : ℝ) := by
  have h : normalize_versions [("1.42.0", 1)] = 0 := by
    simp only [normalize_versions]
    rw [if_neg (by simp)]
    simp [listMax, show rust_version_to_number "1.42.0" = some 42 from rfl, Real.log_one]
  exact ⟨rfl, h, by rw [h]; norm_num⟩

/-- C4 (amended): `normalize_versions` on a counts map with exactly one
entry, whose version parses to the ordinal `n`, returns exactly `n`
whenever the occurrence count is at least 2 (the weight ln(c)/ln(c)
collapses to 1, the sole term of both accumulators); on the empty map it
returns the fixed neutral baseline 1 instead of dividing by zero. -/
theorem c4_single_version_signature :
    (∀ (v : String) (n c : Nat), rust_version_to_number v = some n → 2 ≤ c →
      normalize_versions [(v, c)] = n) ∧
    normalize_versions [] = 1 := by
  constructor
  · intro v n c hv hc
    have hlog : Real.log (c : ℝ) ≠ 0 := by
      have h2 : (2 : ℝ) ≤ (c : ℝ) := by exact_mod_cast hc
      exact ne_of_gt (Real.log_pos (by linarith))
    simp only [normalize_versions]
    rw [if_neg (by simp)]
    simp only [List.map, listMax, List.foldl, hv, Option.getD]
    rw [div_self hlog]
    simp
  · simp [normalize_versions]

/-- C4 witness: the single-version equation at version "1.42.0" with
occurrence count 3. -/
theorem c4_witness :
    rust_version_to_number "1.42.0" = some 42 ∧ 2 ≤ 3 ∧
    normalize_versions [("1.42.0", 3)] = (42 : Nat) :=
  ⟨rfl, by decide, c4_single_version_signature.1 "1.42.0" 42 3 rfl (by decide)⟩
